import Mathlib

/-!
# Grid-line detection and cell scoring of `src/main.go`

A shallow embedding of the core of the mine finder (`findMinesInImage`,
`checkCellForMines`, `findHorizontalWhileLines`, `findVerticalWhileLines`,
`isHorizontalWhiteLine`, `isVerticalWhiteLine`) together with theorems about it.

Modelling decisions, all taken from the Go source and the `image` package:

* The image handed to the core is the `*image.Gray` built by
  `readBased64InputImage`; its bounds start at the origin, so `Bounds().Min` is
  `(0, 0)`, `Bounds().Max` is `(width, height)`, `Dx()` is the width and `Dy()`
  the height.
* `img.At(x, y).RGBA()` yields the 16-bit red channel; `image.Gray.At` yields the
  zero colour for a point outside the bounds, hence channel value `0` there.
* Go `int` is 64 bits wide; coordinates and sums of an image that fits in memory
  stay far below `2 ^ 63`, so they are modelled by unbounded integers.
* `float64` arithmetic is modelled by exact rationals followed by rounding to 53
  significant bits (round to nearest, ties to even) after every operation; the
  magnitudes that occur are within the normal range of the format.
* The conversion `int(NaN)` is implementation-dependent in Go; the level that
  `checkCellForMines` returns on that path is a parameter, `nanLevel`.
-/

namespace MineFinder

/-! ## Data model -/

/-- A raster: its extent and the 16-bit red channel of every pixel. -/
structure Raster where
  width : Nat
  height : Nat
  pix : Int → Int → Nat

/-- The record `CellMineResult` of the source: column index, row index, darkness. -/
structure CellMineResult where
  X : Int
  Y : Int
  Level : Int
  deriving DecidableEq, Repr

/-- The type `image.Rectangle`: the points with `MinX ≤ x < MaxX`, `MinY ≤ y < MaxY`. -/
structure Rectangle where
  MinX : Int
  MinY : Int
  MaxX : Int
  MaxY : Int
  deriving DecidableEq, Repr

/-- The constructor `image.Rect(x0, y0, x1, y1)`: it swaps the coordinates of an axis
when the minimum is greater than the maximum. -/
def Rect (x0 y0 x1 y1 : Int) : Rectangle :=
  { MinX := if x0 > x1 then x1 else x0
    MinY := if y0 > y1 then y1 else y0
    MaxX := if x0 > x1 then x0 else x1
    MaxY := if y0 > y1 then y0 else y1 }

/-- The width `rect.Size().X`. -/
def Rectangle.Dx (r : Rectangle) : Int := r.MaxX - r.MinX

/-- The height `rect.Size().Y`. -/
def Rectangle.Dy (r : Rectangle) : Int := r.MaxY - r.MinY

/-- The values of `v` in a loop `for v := a; v < b; v++`. -/
def intRange (a b : Int) : List Int :=
  (List.range (b - a).toNat).map (fun (k : Nat) => a + (k : Int))

/-- The first result of `img.At(x, y).RGBA()`: the red channel, `0` outside the bounds. -/
def RGBA (img : Raster) (x y : Int) : Nat :=
  if 0 ≤ x ∧ x < (img.width : Int) ∧ 0 ≤ y ∧ y < (img.height : Int) then img.pix x y else 0

/-! ## `float64` -/

/-- Rounding of a rational to the nearest integer, ties to the even one. -/
def roundHalfEven (q : ℚ) : Int :=
  let f := ⌊q⌋
  if q - f < 1 / 2 then f
  else if 1 / 2 < q - f then f + 1
  else if f % 2 = 0 then f else f + 1

/-- The `float64` nearest to a rational of the normal range: 53 significant bits,
round to nearest, ties to even. -/
def f64 (q : ℚ) : ℚ :=
  if q = 0 then 0
  else
    let e : Int := Int.log 2 |q| - 52
    (roundHalfEven (q / (2 : ℚ) ^ e) : ℚ) * (2 : ℚ) ^ e

/-- The function `math.Round` followed by the conversion to `int`: nearest integer,
halves away from zero. -/
def goRound (q : ℚ) : Int :=
  if 0 ≤ q then ⌊q + 1 / 2⌋ else ⌈q - 1 / 2⌉

/-! ## White-line checks -/

/-- The function `isHorizontalWhiteLine`: the row `y` has channel value at least `65280`
at each of its first `min 1000 width` pixels. -/
def isHorizontalWhiteLine (img : Raster) (y : Int) : Bool :=
  let maxX : Int := if (img.width : Int) < 1000 then img.width else 1000
  (intRange 0 maxX).all (fun x => !decide (RGBA img x y < 65280))

/-- The function `isVerticalWhiteLine`: the column `x` has channel value exactly `65535`
at each of its first `min 1000 height` pixels. -/
def isVerticalWhiteLine (img : Raster) (x : Int) : Bool :=
  let maxY : Int := if (img.height : Int) < 1000 then img.height else 1000
  (intRange 0 maxY).all (fun y => !decide (RGBA img x y ≠ 65535))

/-! ## Boundary detection -/

/-- The body of the scanning loop of both detectors, on the state
`(lines, prevWhiteLineAt)`: a white line is appended unless the line just before it was
white, and becomes the previous white line either way. -/
def scanStep (white : Int → Bool) (st : List Int × Int) (v : Int) : List Int × Int :=
  if white v then
    (if st.2 + 1 ≠ v then st.1 ++ [v] else st.1, v)
  else st

/-- The function `findHorizontalWhileLines`: the scan runs over the rows from
`prevWhiteLineAtY + 1` to `Dy() - 1`, the trailing test compares with `Dx()`. -/
def findHorizontalWhileLines (img : Raster) : List Int :=
  let seed : Int := if isHorizontalWhiteLine img 0 then 0 else -1
  let st := (intRange (seed + 1) img.height).foldl (scanStep (isHorizontalWhiteLine img))
    ([seed], seed)
  if st.2 + 1 ≠ (img.width : Int) then st.1 ++ [(img.width : Int)] else st.1

/-- The function `findVerticalWhileLines`: the scan runs over the columns from `1` to
`Dx() - 1`, the trailing test compares with `Dx()`. -/
def findVerticalWhileLines (img : Raster) : List Int :=
  let seed : Int := if isVerticalWhiteLine img 0 then 0 else -1
  let st := (intRange 1 img.width).foldl (scanStep (isVerticalWhiteLine img)) ([seed], seed)
  if st.2 + 1 ≠ (img.width : Int) then st.1 ++ [(img.width : Int)] else st.1

/-! ## Cell scoring -/

/-- The coordinates visited by the two nested loops of `checkCellForMines`, in order. -/
def rectPixels (rect : Rectangle) : List (Int × Int) :=
  (intRange rect.MinY rect.MaxY).flatMap fun y =>
    (intRange rect.MinX rect.MaxX).map fun x => (x, y)

/-- The value of `colorSum` after the loops of `checkCellForMines`: the sum of the high
bytes `colorCode >> 8` of the visited pixels. -/
def colorSum (img : Raster) (rect : Rectangle) : Int :=
  (rectPixels rect).foldl (fun s p => s + ((RGBA img p.1 p.2 >>> 8 : Nat) : Int)) 0

/-- The function `checkCellForMines`. With `pixelCount = 0` no pixel is visited, the
average is `0 / 0 = NaN` and the result is the implementation-dependent `nanLevel`. -/
def checkCellForMines (nanLevel : Int) (img : Raster) (rect : Rectangle) (_minLevel : Int) :
    Int :=
  let pixelCount : Int := rect.Dx * rect.Dy
  if pixelCount = 0 then nanLevel
  else
    let averageColorCode : ℚ := f64 (f64 (colorSum img rect) / f64 pixelCount)
    100 - goRound (f64 (f64 (100 * averageColorCode) / 255))

/-! ## Grid enumeration -/

/-- The inner loop of `findMinesInImage` for the row cell `cellIndexY`, continuing the
result list `acc`. -/
def scanRow (nanLevel : Int) (img : Raster) (minLevel : Int) (verticalLines : List Int)
    (cellIndexY : Nat) (minY maxY : Int) (acc : List CellMineResult) : List CellMineResult :=
  (List.range verticalLines.length).foldl (fun acc cellIndexX =>
    if cellIndexX + 1 = verticalLines.length then acc
    else
      let minX := verticalLines.getD cellIndexX 0
      let maxX := verticalLines.getD (cellIndexX + 1) 0
      let rect := Rect (minX + 1) (minY + 1) maxX maxY
      let darkLevel := checkCellForMines nanLevel img rect minLevel
      if minLevel ≤ darkLevel then
        acc ++ [{ X := cellIndexX, Y := cellIndexY, Level := darkLevel }]
      else acc) acc

/-- The function `findMinesInImage`. -/
def findMinesInImage (nanLevel : Int) (img : Raster) (minLevel : Int) : List CellMineResult :=
  let horizontalLines := findHorizontalWhileLines img
  let verticalLines := findVerticalWhileLines img
  (List.range horizontalLines.length).foldl (fun acc cellIndexY =>
    if cellIndexY + 1 = horizontalLines.length then acc
    else
      scanRow nanLevel img minLevel verticalLines cellIndexY
        (horizontalLines.getD cellIndexY 0) (horizontalLines.getD (cellIndexY + 1) 0) acc) []

/-! ## Auxiliary definitions for the proofs -/

/-- The findings that the cell `(cellIndexX, cellIndexY)` contributes. -/
def cellFindings (nanLevel : Int) (img : Raster) (minLevel : Int) (verticalLines : List Int)
    (cellIndexY : Nat) (minY maxY : Int) (cellIndexX : Nat) : List CellMineResult :=
  if cellIndexX + 1 = verticalLines.length then []
  else
    let darkLevel := checkCellForMines nanLevel img
      (Rect (verticalLines.getD cellIndexX 0 + 1) (minY + 1)
        (verticalLines.getD (cellIndexX + 1) 0) maxY) minLevel
    if minLevel ≤ darkLevel then [{ X := cellIndexX, Y := cellIndexY, Level := darkLevel }]
    else []

/-- The findings that the row cell `cellIndexY` contributes. -/
def rowFindings (nanLevel : Int) (img : Raster) (minLevel : Int)
    (horizontalLines verticalLines : List Int) (cellIndexY : Nat) : List CellMineResult :=
  if cellIndexY + 1 = horizontalLines.length then []
  else
    (List.range verticalLines.length).flatMap
      (cellFindings nanLevel img minLevel verticalLines cellIndexY
        (horizontalLines.getD cellIndexY 0) (horizontalLines.getD (cellIndexY + 1) 0))

/-- Invariant of the scanning loop: the list is not empty, any two of its elements are
at least two apart, and none of them exceeds the previous white line. -/
def ScanInv (st : List Int × Int) : Prop :=
  st.1 ≠ [] ∧ List.Pairwise (fun a b : Int => a + 2 ≤ b) st.1 ∧ ∀ l ∈ st.1, l ≤ st.2

/-! ## Hypotheses on rasters -/

/-- Every pixel of the raster has channel value `65535`. -/
def AllWhite (img : Raster) : Prop :=
  ∀ x y : Int, 0 ≤ x → x < img.width → 0 ≤ y → y < img.height → img.pix x y = 65535

/-- A full-width white row `r` and a full-height white column `c` split the raster into
four quadrants; the quadrant `(qx, qy)` (`0` before the separator, `1` after it) is black
and every other pixel is white. -/
def QuadrantRaster (img : Raster) (r c : Int) (qx qy : Int) : Prop :=
  0 < r ∧ r < (img.height : Int) - 1 ∧ 0 < c ∧ c < (img.width : Int) - 1 ∧
    ∀ x y : Int, 0 ≤ x → x < img.width → 0 ≤ y → y < img.height →
      img.pix x y =
        if ((qx = 0 ∧ x < c) ∨ (qx = 1 ∧ c < x)) ∧ ((qy = 0 ∧ y < r) ∨ (qy = 1 ∧ r < y))
        then 0 else 65535

/-! ## Concrete rasters -/

/-- The raster without pixels. -/
def emptyRaster : Raster := ⟨0, 0, fun _ _ => 0⟩

/-- One column of three pixels: white, white, black. -/
def whiteWhiteBlack : Raster := ⟨1, 3, fun _ y => if y = 2 then 0 else 65535⟩

/-- One row of two black pixels. -/
def blackPair : Raster := ⟨2, 1, fun _ _ => 0⟩

/-- A single white pixel. -/
def whitePixel : Raster := ⟨1, 1, fun _ _ => 65535⟩

/-- A 3x3 raster with white middle row and middle column. -/
def crossRaster : Raster := ⟨3, 3, fun x y => if x = 1 ∨ y = 1 then 65535 else 0⟩

/-- A 3x3 raster whose only black pixel is the bottom-right one. -/
def blackCorner : Raster := ⟨3, 3, fun x y => if x = 2 ∧ y = 2 then 0 else 65535⟩

/-- A 3x3 raster whose only black pixel is the top-left one. -/
def blackOrigin : Raster := ⟨3, 3, fun x y => if x = 0 ∧ y = 0 then 0 else 65535⟩

/-! ## Order of the findings -/

/-- Row-major order of two findings: the row index grows, or it is the same and the
column index grows. -/
def RowMajor (a b : CellMineResult) : Prop :=
  a.Y < b.Y ∨ (a.Y = b.Y ∧ a.X < b.X)

/-! ## 8-bit gray rasters -/

/-- The 16-bit channel value of the 8-bit gray value `v`: `color.Gray{v}.RGBA()` yields
`v | v << 8`, that is `257 * v`. -/
def grayChannel (v : Nat) : Nat := 257 * v

/-- The raster of an `image.Gray` of the given extent whose pixel `(x, y)` holds the
byte `Y x y`. -/
def grayRaster (w h : Nat) (Y : Int → Int → Nat) : Raster :=
  ⟨w, h, fun x y => grayChannel (Y x y % 256)⟩

/-- The raster with the two axes exchanged. -/
def transpose (img : Raster) : Raster :=
  ⟨img.height, img.width, fun x y => img.pix y x⟩

/-! ## Boundaries described from the white lines -/

/-- The indices `x` with `1 ≤ x < n` that are white while `x - 1` is not, in increasing
order: the first members of the runs of white lines that do not start at `0`. -/
def risingEdges (white : Int → Bool) (n : Int) : List Int :=
  (intRange 1 n).filter (fun x => white x && !white (x - 1))

/-- The index `p` is the last white one among `0, ..., n - 1`, or `-1` when none of them
is white. -/
def IsLastWhite (white : Int → Bool) (n p : Int) : Prop :=
  (p = -1 ∧ ∀ y, 0 ≤ y → y < n → white y = false) ∨
    (0 ≤ p ∧ p < n ∧ white p = true ∧ ∀ y, p < y → y < n → white y = false)

/-! ## Rasters wider or taller than the sampling cap -/

/-- One row of 1001 pixels: the first 1000 white, the last one black. -/
def wideRow : Raster := ⟨1001, 1, fun x _ => if x < 1000 then 65535 else 0⟩

/-- One column of 1001 pixels: the first 1000 white, the last one black. -/
def tallColumn : Raster := ⟨1, 1001, fun _ y => if y < 1000 then 65535 else 0⟩

/-! ## Auxiliary facts on loops -/

theorem foldl_append_flatMap {α β : Type} (f : α → List β) (l : List α) (init : List β) :
    l.foldl (fun acc a => acc ++ f a) init = init ++ l.flatMap f := by
  induction l generalizing init with
  | nil => simp
  | cons a l ih => simp [ih, List.append_assoc]

theorem scanRow_eq (nanLevel : Int) (img : Raster) (minLevel : Int) (vl : List Int)
    (iy : Nat) (minY maxY : Int) (acc : List CellMineResult) :
    scanRow nanLevel img minLevel vl iy minY maxY acc =
      acc ++ (List.range vl.length).flatMap
        (cellFindings nanLevel img minLevel vl iy minY maxY) := by
  unfold scanRow
  rw [← foldl_append_flatMap]
  refine List.foldl_ext _ _ _ ?_
  intro acc ix _
  unfold cellFindings
  by_cases h1 : ix + 1 = vl.length
  · simp [h1]
  · simp only [h1, if_false]
    split <;> simp

theorem findMinesInImage_eq (nanLevel : Int) (img : Raster) (minLevel : Int) :
    findMinesInImage nanLevel img minLevel =
      (List.range (findHorizontalWhileLines img).length).flatMap
        (rowFindings nanLevel img minLevel (findHorizontalWhileLines img)
          (findVerticalWhileLines img)) := by
  have h := foldl_append_flatMap (rowFindings nanLevel img minLevel
    (findHorizontalWhileLines img) (findVerticalWhileLines img))
    (List.range (findHorizontalWhileLines img).length) []
  rw [List.nil_append] at h
  rw [← h]
  unfold findMinesInImage
  refine List.foldl_ext _ _ _ ?_
  intro acc iy _
  unfold rowFindings
  by_cases h1 : iy + 1 = (findHorizontalWhileLines img).length
  · simp [h1]
  · simp only [h1, if_false]
    rw [scanRow_eq]

theorem mem_cellFindings {nanLevel : Int} {img : Raster} {minLevel : Int} {vl : List Int}
    {iy : Nat} {minY maxY : Int} {ix : Nat} {f : CellMineResult} :
    f ∈ cellFindings nanLevel img minLevel vl iy minY maxY ix ↔
      ix + 1 ≠ vl.length ∧ f.X = ix ∧ f.Y = iy ∧
      f.Level = checkCellForMines nanLevel img
        (Rect (vl.getD ix 0 + 1) (minY + 1) (vl.getD (ix + 1) 0) maxY) minLevel ∧
      minLevel ≤ f.Level := by
  unfold cellFindings
  by_cases h1 : ix + 1 = vl.length
  · simp [h1]
  · simp only [h1, if_false]
    split
    · rename_i h2
      rw [List.mem_singleton]
      constructor
      · rintro rfl
        exact ⟨h1, rfl, rfl, rfl, h2⟩
      · rintro ⟨-, hx, hy, hl, -⟩
        cases f
        simp only at hx hy hl
        rw [hx, hy, hl]
    · rename_i h2
      simp only [List.not_mem_nil, false_iff]
      rintro ⟨-, -, -, hl, h3⟩
      exact h2 (hl ▸ h3)

theorem mem_findMinesInImage {nanLevel : Int} {img : Raster} {minLevel : Int}
    {f : CellMineResult} :
    f ∈ findMinesInImage nanLevel img minLevel ↔
      ∃ iy ix : Nat, iy + 1 < (findHorizontalWhileLines img).length ∧
        ix + 1 < (findVerticalWhileLines img).length ∧ f.X = ix ∧ f.Y = iy ∧
        f.Level = checkCellForMines nanLevel img
          (Rect ((findVerticalWhileLines img).getD ix 0 + 1)
            ((findHorizontalWhileLines img).getD iy 0 + 1)
            ((findVerticalWhileLines img).getD (ix + 1) 0)
            ((findHorizontalWhileLines img).getD (iy + 1) 0)) minLevel ∧
        minLevel ≤ f.Level := by
  rw [findMinesInImage_eq]
  simp only [List.mem_flatMap, List.mem_range]
  constructor
  · rintro ⟨iy, hiy, hf⟩
    unfold rowFindings at hf
    by_cases h1 : iy + 1 = (findHorizontalWhileLines img).length
    · simp [h1] at hf
    · simp only [h1, if_false, List.mem_flatMap, List.mem_range] at hf
      obtain ⟨ix, hix, hf⟩ := hf
      rw [mem_cellFindings] at hf
      exact ⟨iy, ix, by omega, by omega, hf.2⟩
  · rintro ⟨iy, ix, hiy, hix, hf⟩
    refine ⟨iy, by omega, ?_⟩
    unfold rowFindings
    have h1 : iy + 1 ≠ (findHorizontalWhileLines img).length := by omega
    simp only [h1, if_false, List.mem_flatMap, List.mem_range]
    refine ⟨ix, by omega, ?_⟩
    rw [mem_cellFindings]
    exact ⟨by omega, hf⟩

theorem cellFindings_keys (nanLevel : Int) (img : Raster) (minLevel : Int) (vl : List Int)
    (iy : Nat) (minY maxY : Int) (ix : Nat) :
    (cellFindings nanLevel img minLevel vl iy minY maxY ix).map (fun f => (f.Y, f.X)) = [] ∨
    (cellFindings nanLevel img minLevel vl iy minY maxY ix).map (fun f => (f.Y, f.X)) =
      [((iy : Int), (ix : Int))] := by
  unfold cellFindings
  by_cases h1 : ix + 1 = vl.length
  · simp [h1]
  · simp only [h1, if_false]
    split <;> simp

theorem findMinesInImage_keys_nodup (nanLevel : Int) (img : Raster) (minLevel : Int) :
    ((findMinesInImage nanLevel img minLevel).map (fun f => (f.Y, f.X))).Nodup := by
  rw [findMinesInImage_eq, List.map_flatMap, List.nodup_flatMap]
  constructor
  · intro iy _
    unfold rowFindings
    split
    · simp
    · rw [List.map_flatMap, List.nodup_flatMap]
      constructor
      · intro ix _
        rcases cellFindings_keys nanLevel img minLevel (findVerticalWhileLines img) iy
          ((findHorizontalWhileLines img).getD iy 0)
          ((findHorizontalWhileLines img).getD (iy + 1) 0) ix with h | h <;> rw [h] <;> simp
      · refine (List.nodup_range _).pairwise_of_forall_ne ?_
        intro a _ b _ hab
        simp only [Function.onFun]
        intro k hk1 hk2
        rcases cellFindings_keys nanLevel img minLevel (findVerticalWhileLines img) iy
          ((findHorizontalWhileLines img).getD iy 0)
          ((findHorizontalWhileLines img).getD (iy + 1) 0) a with h | h <;> rw [h] at hk1
        · simp at hk1
        rcases cellFindings_keys nanLevel img minLevel (findVerticalWhileLines img) iy
          ((findHorizontalWhileLines img).getD iy 0)
          ((findHorizontalWhileLines img).getD (iy + 1) 0) b with h | h <;> rw [h] at hk2
        · simp at hk2
        simp only [List.mem_singleton] at hk1 hk2
        rw [hk1] at hk2
        simp only [Prod.mk.injEq, Nat.cast_inj, true_and] at hk2
        exact hab hk2
  · refine (List.nodup_range _).pairwise_of_forall_ne ?_
    intro a _ b _ hab
    simp only [Function.onFun]
    intro k hk1 hk2
    simp only [List.mem_map] at hk1 hk2
    obtain ⟨f1, hf1, rfl⟩ := hk1
    obtain ⟨f2, hf2, hk⟩ := hk2
    unfold rowFindings at hf1 hf2
    split at hf1
    · simp at hf1
    split at hf2
    · simp at hf2
    simp only [List.mem_flatMap, List.mem_range] at hf1 hf2
    obtain ⟨i1, -, h1⟩ := hf1
    obtain ⟨i2, -, h2⟩ := hf2
    rw [mem_cellFindings] at h1 h2
    simp only [Prod.mk.injEq] at hk
    have : (a : Int) = b := by rw [← h1.2.2.1, ← h2.2.2.1, hk.1]
    exact hab (by exact_mod_cast this)


/-! ## The loop ranges -/

theorem mem_intRange {a b x : Int} : x ∈ intRange a b ↔ a ≤ x ∧ x < b := by
  unfold intRange
  simp only [List.mem_map, List.mem_range]
  constructor
  · rintro ⟨k, hk, rfl⟩
    omega
  · rintro ⟨h1, h2⟩
    exact ⟨(x - a).toNat, by omega, by omega⟩

theorem intRange_of_le {a b : Int} (h : b ≤ a) : intRange a b = [] := by
  unfold intRange
  have : (b - a).toNat = 0 := by omega
  simp [this]

theorem intRange_cons {a b : Int} (h : a < b) : intRange a b = a :: intRange (a + 1) b := by
  unfold intRange
  obtain ⟨n, hn⟩ : ∃ n : Nat, (b - a).toNat = n + 1 := ⟨(b - a).toNat - 1, by omega⟩
  have h2 : (b - (a + 1)).toNat = n := by omega
  rw [hn, h2, List.range_succ_eq_map]
  simp only [List.map_cons, List.map_map, Nat.cast_zero, add_zero, List.cons.injEq, true_and]
  apply List.map_congr_left
  intro k _
  simp only [Function.comp, Nat.cast_succ]
  ring

theorem intRange_pairwise (a b : Int) : List.Pairwise (· < ·) (intRange a b) := by
  unfold intRange
  rw [List.pairwise_map]
  refine (List.pairwise_lt_range _).imp ?_
  intro i j hij
  omega

/-! ## The scanning loop keeps the boundary list increasing -/

theorem scanStep_inv (white : Int → Bool) {st : List Int × Int} {v : Int}
    (h : ScanInv st) (hv : st.2 < v) : ScanInv (scanStep white st v) := by
  obtain ⟨h1, h2, h3⟩ := h
  unfold scanStep
  by_cases hw : white v = true
  · simp only [hw, if_true]
    by_cases hp : st.2 + 1 ≠ v
    · rw [if_pos hp]
      refine ⟨by simp, ?_, ?_⟩
      · rw [List.pairwise_append]
        refine ⟨h2, List.pairwise_singleton _ _, ?_⟩
        intro x hx y hy
        rw [List.mem_singleton] at hy
        have := h3 x hx
        omega
      · intro l hl
        rw [List.mem_append, List.mem_singleton] at hl
        rcases hl with hl | hl
        · have := h3 l hl
          simp only
          omega
        · simp only
          omega
    · rw [if_neg hp]
      refine ⟨h1, h2, ?_⟩
      intro l hl
      have := h3 l hl
      simp only
      omega
  · simp only [hw]
    exact ⟨h1, h2, h3⟩

theorem scanStep_snd (white : Int → Bool) (st : List Int × Int) (v : Int) :
    (scanStep white st v).2 = st.2 ∨ (scanStep white st v).2 = v := by
  unfold scanStep
  split <;> simp

theorem scan_inv (white : Int → Bool) (xs : List Int) :
    ∀ st : List Int × Int, ScanInv st → (∀ x ∈ xs, st.2 < x) → List.Pairwise (· < ·) xs →
      ScanInv (xs.foldl (scanStep white) st) ∧
        ((xs.foldl (scanStep white) st).2 = st.2 ∨ (xs.foldl (scanStep white) st).2 ∈ xs) := by
  induction xs with
  | nil => intro st h _ _; exact ⟨h, Or.inl rfl⟩
  | cons x xs ih =>
    intro st h hlt hp
    rw [List.pairwise_cons] at hp
    have hx : st.2 < x := hlt x (List.mem_cons_self _ _)
    have hstep := scanStep_inv white h hx
    have hnext : ∀ y ∈ xs, (scanStep white st x).2 < y := by
      intro y hy
      rcases scanStep_snd white st x with e | e <;> rw [e]
      · exact hlt y (List.mem_cons_of_mem _ hy)
      · exact hp.1 y hy
    obtain ⟨i1, i2⟩ := ih (scanStep white st x) hstep hnext hp.2
    rw [List.foldl_cons]
    refine ⟨i1, ?_⟩
    rcases i2 with e | e
    · rcases scanStep_snd white st x with e2 | e2
      · left; rw [e, e2]
      · right; rw [e, e2]; exact List.mem_cons_self _ _
    · right; exact List.mem_cons_of_mem _ e

theorem seed_inv (seed : Int) : ScanInv ([seed], seed) :=
  ⟨by simp, List.pairwise_singleton _ _, by simp⟩

/-- Appending the extent keeps the gaps when the last white line is at least two before it. -/
theorem trailing_gaps {st : List Int × Int} {e : Int} (h : ScanInv st) (he : st.2 + 2 ≤ e) :
    List.Pairwise (fun a b : Int => a + 2 ≤ b) (st.1 ++ [e]) := by
  rw [List.pairwise_append]
  refine ⟨h.2.1, List.pairwise_singleton _ _, ?_⟩
  intro x hx y hy
  rw [List.mem_singleton] at hy
  have := h.2.2 x hx
  omega

theorem seed_cases (b : Bool) : (if b = true then (0 : Int) else -1) = 0 ∨
    (if b = true then (0 : Int) else -1) = -1 := by
  cases b <;> simp

theorem isVerticalWhiteLine_of_height_zero (img : Raster) (h : img.height = 0) (x : Int) :
    isVerticalWhiteLine img x = true := by
  unfold isVerticalWhiteLine
  simp [h, intRange]

theorem isVerticalWhiteLine_zero_of_width_zero (img : Raster) (hw : img.width = 0)
    (hh : img.height ≠ 0) : isVerticalWhiteLine img 0 = false := by
  unfold isVerticalWhiteLine
  rw [Bool.eq_false_iff]
  intro hall
  rw [List.all_eq_true] at hall
  have hmem : (0 : Int) ∈ intRange 0 (if (img.height : Int) < 1000 then img.height else 1000) := by
    rw [mem_intRange]
    split <;> omega
  have := hall 0 hmem
  simp [RGBA, hw] at this

/-- The column boundaries are at least two apart, except for the empty raster. -/
theorem vertical_gaps (img : Raster) (hne : ¬(img.width = 0 ∧ img.height = 0)) :
    List.Pairwise (fun a b : Int => a + 2 ≤ b) (findVerticalWhileLines img) := by
  unfold findVerticalWhileLines
  dsimp only
  have hs := seed_cases (isVerticalWhiteLine img 0)
  have hz : img.width = 0 → (if isVerticalWhiteLine img 0 = true then (0 : Int) else -1) = -1 := by
    intro hw
    rw [isVerticalWhiteLine_zero_of_width_zero img hw (fun hh => hne ⟨hw, hh⟩)]
    simp
  generalize (if isVerticalWhiteLine img 0 = true then (0 : Int) else -1) = seed at hs hz ⊢
  obtain ⟨i1, i2⟩ := scan_inv (isVerticalWhiteLine img) (intRange 1 img.width) ([seed], seed)
    (seed_inv seed) (by intro x hx; rw [mem_intRange] at hx; simp only; omega)
    (intRange_pairwise _ _)
  simp only at i2
  split
  · rename_i hne2
    apply trailing_gaps i1
    rcases i2 with e | e
    · rw [e] at hne2 ⊢
      by_cases hw : img.width = 0
      · have := hz hw
        omega
      · omega
    · rw [mem_intRange] at e
      omega
  · exact i1.2.1

/-- The row boundaries are at least two apart when the raster is not empty and not
taller than wide. -/
theorem horizontal_gaps (img : Raster) (hw : 1 ≤ img.width) (hhw : img.height ≤ img.width) :
    List.Pairwise (fun a b : Int => a + 2 ≤ b) (findHorizontalWhileLines img) := by
  unfold findHorizontalWhileLines
  dsimp only
  have hs := seed_cases (isHorizontalWhiteLine img 0)
  generalize (if isHorizontalWhiteLine img 0 = true then (0 : Int) else -1) = seed at hs ⊢
  obtain ⟨i1, i2⟩ := scan_inv (isHorizontalWhiteLine img) (intRange (seed + 1) img.height)
    ([seed], seed) (seed_inv seed) (by intro x hx; rw [mem_intRange] at hx; simp only; omega)
    (intRange_pairwise _ _)
  simp only at i2
  split
  · rename_i hne2
    apply trailing_gaps i1
    rcases i2 with e | e
    · rw [e] at hne2 ⊢
      omega
    · rw [mem_intRange] at e
      omega
  · exact i1.2.1

theorem sorted_of_gaps {l : List Int} (h : List.Pairwise (fun a b : Int => a + 2 ≤ b) l) :
    List.Sorted (· < ·) l :=
  h.imp (fun {a b} hab => by omega)


/-! ## Scoring a cell -/

theorem f64_zero : f64 0 = 0 := by
  simp [f64]

theorem goRound_zero : goRound 0 = 0 := by
  unfold goRound
  rw [if_pos le_rfl, Int.floor_eq_iff]
  norm_num

theorem colorSum_eq_zero (img : Raster) (rect : Rectangle)
    (h : ∀ p ∈ rectPixels rect, RGBA img p.1 p.2 >>> 8 = 0) : colorSum img rect = 0 := by
  unfold colorSum
  generalize rectPixels rect = ps at h
  induction ps with
  | nil => rfl
  | cons p ps ih =>
    rw [List.foldl_cons, h p (List.mem_cons_self _ _)]
    exact ih (fun q hq => h q (List.mem_cons_of_mem _ hq))

/-- A cell of non-zero area whose pixels all have high byte `0` has level `100`. -/
theorem checkCellForMines_black (nanLevel : Int) (img : Raster) (rect : Rectangle)
    (minLevel : Int) (harea : rect.Dx * rect.Dy ≠ 0)
    (h : ∀ p ∈ rectPixels rect, RGBA img p.1 p.2 >>> 8 = 0) :
    checkCellForMines nanLevel img rect minLevel = 100 := by
  unfold checkCellForMines
  simp only [harea, if_false, colorSum_eq_zero img rect h]
  simp [f64_zero, goRound_zero]

theorem checkCellForMines_zero_area (nanLevel : Int) (img : Raster) (rect : Rectangle)
    (minLevel : Int) (harea : rect.Dx * rect.Dy = 0) :
    checkCellForMines nanLevel img rect minLevel = nanLevel := by
  unfold checkCellForMines
  simp [harea]

theorem mem_rectPixels {rect : Rectangle} {x y : Int} :
    (x, y) ∈ rectPixels rect ↔
      rect.MinX ≤ x ∧ x < rect.MaxX ∧ rect.MinY ≤ y ∧ y < rect.MaxY := by
  unfold rectPixels
  simp only [List.mem_flatMap, List.mem_map, Prod.mk.injEq, mem_intRange]
  constructor
  · rintro ⟨y', hy, x', hx, rfl, rfl⟩
    exact ⟨hx.1, hx.2, hy.1, hy.2⟩
  · rintro ⟨h1, h2, h3, h4⟩
    exact ⟨y, ⟨h3, h4⟩, x, ⟨h1, h2⟩, rfl, rfl⟩

/-! ## The grid of a raster with two boundaries on each axis -/

/-- With two row boundaries and two column boundaries there is one cell. -/
theorem findMinesInImage_single_cell (nanLevel : Int) (img : Raster) (minLevel : Int)
    (a b c d : Int) (hh : findHorizontalWhileLines img = [a, b])
    (hv : findVerticalWhileLines img = [c, d]) :
    findMinesInImage nanLevel img minLevel =
      if minLevel ≤ checkCellForMines nanLevel img (Rect (c + 1) (a + 1) d b) minLevel then
        [{ X := 0, Y := 0,
           Level := checkCellForMines nanLevel img (Rect (c + 1) (a + 1) d b) minLevel }]
      else [] := by
  rw [findMinesInImage_eq, hh, hv]
  simp [rowFindings, cellFindings, List.range_succ]

/-- With fewer than two column boundaries there is no cell. -/
theorem findMinesInImage_no_column (nanLevel : Int) (img : Raster) (minLevel : Int)
    (hv : (findVerticalWhileLines img).length ≤ 1) :
    findMinesInImage nanLevel img minLevel = [] := by
  rw [List.eq_nil_iff_forall_not_mem]
  intro f hf
  rw [mem_findMinesInImage] at hf
  obtain ⟨iy, ix, -, hix, -⟩ := hf
  omega

/-! ## The empty raster -/

theorem horizontal_empty (img : Raster) (hw : img.width = 0) (hh : img.height = 0) :
    findHorizontalWhileLines img = [0, 0] := by
  simp [findHorizontalWhileLines, isHorizontalWhiteLine, intRange, scanStep, hw, hh]

theorem vertical_empty (img : Raster) (hw : img.width = 0) (hh : img.height = 0) :
    findVerticalWhileLines img = [0, 0] := by
  simp [findVerticalWhileLines, isVerticalWhiteLine, intRange, scanStep, hw, hh]

theorem findMinesInImage_empty (nanLevel : Int) (img : Raster) (minLevel : Int)
    (hw : img.width = 0) (hh : img.height = 0) :
    findMinesInImage nanLevel img minLevel = if minLevel ≤ 100 then [⟨0, 0, 100⟩] else [] := by
  rw [findMinesInImage_single_cell nanLevel img minLevel 0 0 0 0 (horizontal_empty img hw hh)
    (vertical_empty img hw hh)]
  have hc : checkCellForMines nanLevel img (Rect (0 + 1) (0 + 1) 0 0) minLevel = 100 := by
    apply checkCellForMines_black
    · decide
    · intro p _
      unfold RGBA
      rw [if_neg (by omega)]
      rfl
  rw [hc]


/-! ## Scanning runs of white and of non-white lines -/

theorem intRange_append {a c b : Int} (hac : a ≤ c) (hcb : c ≤ b) :
    intRange a b = intRange a c ++ intRange c b := by
  obtain ⟨n, rfl⟩ : ∃ n : Nat, c = a + n := ⟨(c - a).toNat, by omega⟩
  clear hac
  induction n generalizing a with
  | zero => simp [intRange_of_le]
  | succ n ih =>
    have h1 : a < b := by push_cast at hcb; omega
    have h2 : a < a + ((n + 1 : Nat) : Int) := by push_cast; omega
    have e : a + ((n + 1 : Nat) : Int) = (a + 1) + n := by push_cast; ring
    rw [intRange_cons h1, intRange_cons h2, e, List.cons_append, ← ih (by omega)]

theorem scan_nonwhite (white : Int → Bool) (xs : List Int) (st : List Int × Int)
    (h : ∀ v ∈ xs, white v = false) : xs.foldl (scanStep white) st = st := by
  induction xs with
  | nil => rfl
  | cons x xs ih =>
    rw [List.foldl_cons]
    have hx : scanStep white st x = st := by
      unfold scanStep
      simp [h x (List.mem_cons_self _ _)]
    rw [hx]
    exact ih (fun v hv => h v (List.mem_cons_of_mem _ hv))

theorem scan_white (white : Int → Bool) (n : Nat) :
    ∀ (a : Int) (lines : List Int), (∀ v, a ≤ v → v < a + n → white v = true) →
      (intRange a (a + n)).foldl (scanStep white) (lines, a - 1) = (lines, a + n - 1) := by
  induction n with
  | zero =>
    intro a lines _
    simp [intRange_of_le]
  | succ n ih =>
    intro a lines h
    have h2 : a < a + ((n + 1 : Nat) : Int) := by push_cast; omega
    have e : a + ((n + 1 : Nat) : Int) = (a + 1) + n := by push_cast; ring
    have hstep : scanStep white (lines, a - 1) a = (lines, (a + 1) - 1) := by
      unfold scanStep
      simp [h a le_rfl h2]
    rw [intRange_cons h2, List.foldl_cons, hstep, e, ih (a + 1) lines]
    intro v hv1 hv2
    exact h v (by omega) (by omega)

/-- Scanning from `a` to `n - 1` when the lines before `r` are not white and the lines
from `r` on are white: `r` is the only boundary added. -/
theorem scan_block (white : Int → Bool) (a r n : Int) (har : a ≤ r) (hr0 : 0 < r)
    (hrn : r < n) (hnw : ∀ v, a ≤ v → v < r → white v = false)
    (hw : ∀ v, r ≤ v → v < n → white v = true) :
    (intRange a n).foldl (scanStep white) ([-1], -1) = ([-1, r], n - 1) := by
  have h1 : (intRange a r).foldl (scanStep white) ([-1], -1) = ([-1], -1) :=
    scan_nonwhite white _ _ (fun v hv => by rw [mem_intRange] at hv; exact hnw v hv.1 hv.2)
  have hstep : scanStep white ([-1], -1) r = ([-1, r], (r + 1) - 1) := by
    unfold scanStep
    have : ¬ (0 : Int) = r := by omega
    simp [hw r le_rfl hrn, this]
  obtain ⟨k, hk⟩ : ∃ k : Nat, n = (r + 1) + k := ⟨(n - (r + 1)).toNat, by omega⟩
  have h2 := scan_white white k (r + 1) [-1, r] (fun v hv1 hv2 => hw v (by omega) (by omega))
  rw [intRange_append har (le_of_lt hrn), List.foldl_append, h1, intRange_cons hrn,
    List.foldl_cons, hstep, hk, h2]

/-! ## Deciding the white-line checks -/

theorem isHorizontalWhiteLine_true (img : Raster) (y : Int)
    (h : ∀ x : Int, 0 ≤ x → x < img.width → x < 1000 → 65280 ≤ RGBA img x y) :
    isHorizontalWhiteLine img y = true := by
  unfold isHorizontalWhiteLine
  rw [List.all_eq_true]
  intro x hx
  rw [mem_intRange] at hx
  have := h x hx.1 (by split at hx <;> omega) (by split at hx <;> omega)
  simp only [Bool.not_eq_true', decide_eq_false_iff_not, not_lt]
  exact this

theorem isHorizontalWhiteLine_false (img : Raster) (y : Int) (x : Int) (h0 : 0 ≤ x)
    (hw : x < img.width) (hk : x < 1000) (h : RGBA img x y < 65280) :
    isHorizontalWhiteLine img y = false := by
  unfold isHorizontalWhiteLine
  rw [Bool.eq_false_iff]
  intro hall
  rw [List.all_eq_true] at hall
  have := hall x (by rw [mem_intRange]; split <;> omega)
  simp only [Bool.not_eq_true', decide_eq_false_iff_not, not_lt] at this
  omega

theorem isVerticalWhiteLine_true (img : Raster) (x : Int)
    (h : ∀ y : Int, 0 ≤ y → y < img.height → y < 1000 → RGBA img x y = 65535) :
    isVerticalWhiteLine img x = true := by
  unfold isVerticalWhiteLine
  rw [List.all_eq_true]
  intro y hy
  rw [mem_intRange] at hy
  have := h y hy.1 (by split at hy <;> omega) (by split at hy <;> omega)
  simp only [Bool.not_eq_true', decide_eq_false_iff_not, not_not]
  exact this

theorem isVerticalWhiteLine_false (img : Raster) (x : Int) (y : Int) (h0 : 0 ≤ y)
    (hh : y < img.height) (hk : y < 1000) (h : RGBA img x y ≠ 65535) :
    isVerticalWhiteLine img x = false := by
  unfold isVerticalWhiteLine
  rw [Bool.eq_false_iff]
  intro hall
  rw [List.all_eq_true] at hall
  have := hall y (by rw [mem_intRange]; split <;> omega)
  simp only [Bool.not_eq_true', decide_eq_false_iff_not, not_not] at this
  exact h this

theorem RGBA_of_mem (img : Raster) {x y : Int} (hx0 : 0 ≤ x) (hx : x < img.width)
    (hy0 : 0 ≤ y) (hy : y < img.height) : RGBA img x y = img.pix x y := by
  unfold RGBA
  rw [if_pos ⟨hx0, hx, hy0, hy⟩]

/-! ## The all-white raster -/

theorem vertical_all_white (img : Raster) (hw : 1 ≤ img.width) (hwhite : AllWhite img) :
    findVerticalWhileLines img = [0] := by
  have hcol : ∀ x : Int, 0 ≤ x → x < img.width → isVerticalWhiteLine img x = true := by
    intro x hx0 hx
    apply isVerticalWhiteLine_true
    intro y hy0 hy _
    rw [RGBA_of_mem img hx0 hx hy0 hy, hwhite x y hx0 hx hy0 hy]
  unfold findVerticalWhileLines
  dsimp only
  rw [hcol 0 le_rfl (by omega), if_pos rfl]
  obtain ⟨k, hk⟩ : ∃ k : Nat, (img.width : Int) = 1 + k := ⟨img.width - 1, by omega⟩
  have hs := scan_white (isVerticalWhiteLine img) k 1 [0]
    (fun v hv1 hv2 => hcol v (by omega) (by omega))
  rw [show ((1 : Int) - 1) = 0 from rfl] at hs
  rw [hk, hs, if_neg]
  simp only [ne_eq, not_not]
  ring

theorem horizontal_all_white (img : Raster) (hh : 1 ≤ img.height) (hwhite : AllWhite img) :
    findHorizontalWhileLines img =
      if (img.height : Int) - 1 + 1 ≠ img.width then [0, (img.width : Int)] else [0] := by
  have hrow : ∀ y : Int, 0 ≤ y → y < img.height → isHorizontalWhiteLine img y = true := by
    intro y hy0 hy
    apply isHorizontalWhiteLine_true
    intro x hx0 hx _
    rw [RGBA_of_mem img hx0 hx hy0 hy, hwhite x y hx0 hx hy0 hy]
    norm_num
  unfold findHorizontalWhileLines
  dsimp only
  rw [hrow 0 le_rfl (by omega), if_pos rfl]
  obtain ⟨k, hk⟩ : ∃ k : Nat, (img.height : Int) = 1 + k := ⟨img.height - 1, by omega⟩
  have hs := scan_white (isHorizontalWhiteLine img) k 1 [0]
    (fun v hv1 hv2 => hrow v (by omega) (by omega))
  rw [show ((1 : Int) - 1) = 0 from rfl] at hs
  rw [show ((0 : Int) + 1) = 1 from rfl, hk, hs]
  rfl


/-! ## The raster with a black top-left quadrant -/

theorem quadrant_horizontal (img : Raster) (r c : Int) (hq : QuadrantRaster img r c 0 0)
    (hsq : img.height = img.width) : findHorizontalWhileLines img = [-1, r] := by
  obtain ⟨hr0, hr, hc0, hc, hpix⟩ := hq
  have hnw : ∀ y : Int, 0 ≤ y → y < r → isHorizontalWhiteLine img y = false := by
    intro y hy0 hy
    apply isHorizontalWhiteLine_false img y 0 le_rfl (by omega) (by norm_num)
    rw [RGBA_of_mem img le_rfl (by omega) hy0 (by omega), hpix 0 y le_rfl (by omega) hy0 (by omega),
      if_pos ⟨Or.inl ⟨rfl, hc0⟩, Or.inl ⟨rfl, hy⟩⟩]
    norm_num
  have hw : ∀ y : Int, r ≤ y → y < img.height → isHorizontalWhiteLine img y = true := by
    intro y hy0 hy
    apply isHorizontalWhiteLine_true
    intro x hx0 hx _
    rw [RGBA_of_mem img hx0 hx (by omega) hy, hpix x y hx0 hx (by omega) hy, if_neg]
    · norm_num
    · rintro ⟨-, h | h⟩ <;> omega
  unfold findHorizontalWhileLines
  dsimp only
  rw [hnw 0 le_rfl hr0]
  simp only [Bool.false_eq_true, if_false]
  rw [show ((-1 : Int) + 1) = 0 from rfl,
    scan_block (isHorizontalWhiteLine img) 0 r img.height (le_of_lt hr0) hr0 (by omega) hnw hw,
    if_neg]
  simp only [ne_eq, not_not]
  omega

theorem quadrant_vertical (img : Raster) (r c : Int) (hq : QuadrantRaster img r c 0 0) :
    findVerticalWhileLines img = [-1, c] := by
  obtain ⟨hr0, hr, hc0, hc, hpix⟩ := hq
  have hnw : ∀ x : Int, 0 ≤ x → x < c → isVerticalWhiteLine img x = false := by
    intro x hx0 hx
    apply isVerticalWhiteLine_false img x 0 le_rfl (by omega) (by norm_num)
    rw [RGBA_of_mem img hx0 (by omega) le_rfl (by omega), hpix x 0 hx0 (by omega) le_rfl (by omega),
      if_pos ⟨Or.inl ⟨rfl, hx⟩, Or.inl ⟨rfl, hr0⟩⟩]
    norm_num
  have hw : ∀ x : Int, c ≤ x → x < img.width → isVerticalWhiteLine img x = true := by
    intro x hx0 hx
    apply isVerticalWhiteLine_true
    intro y hy0 hy _
    rw [RGBA_of_mem img (by omega) hx hy0 hy, hpix x y (by omega) hx hy0 hy, if_neg]
    rintro ⟨h | h, -⟩ <;> omega
  unfold findVerticalWhileLines
  dsimp only
  rw [hnw 0 le_rfl hc0]
  simp only [Bool.false_eq_true, if_false]
  rw [scan_block (isVerticalWhiteLine img) 1 c img.width (by omega) hc0 (by omega)
    (fun v hv1 hv2 => hnw v (by omega) hv2) hw, if_neg]
  simp only [ne_eq, not_not]
  omega

theorem quadrant_cell (nanLevel : Int) (img : Raster) (r c : Int)
    (hq : QuadrantRaster img r c 0 0) (minLevel : Int) :
    checkCellForMines nanLevel img (Rect (-1 + 1) (-1 + 1) c r) minLevel = 100 := by
  obtain ⟨hr0, hr, hc0, hc, hpix⟩ := hq
  have hrect : Rect (-1 + 1) (-1 + 1) c r = ⟨0, 0, c, r⟩ := by
    unfold Rect
    rw [show ((-1 : Int) + 1) = 0 from rfl, if_neg (by omega), if_neg (by omega),
      if_neg (by omega), if_neg (by omega)]
  rw [hrect]
  apply checkCellForMines_black
  · simp only [Rectangle.Dx, Rectangle.Dy, sub_zero]
    exact mul_ne_zero (by omega) (by omega)
  · rintro ⟨x, y⟩ hp
    rw [mem_rectPixels] at hp
    simp only at hp ⊢
    rw [RGBA_of_mem img hp.1 (by omega) hp.2.2.1 (by omega),
      hpix x y hp.1 (by omega) hp.2.2.1 (by omega),
      if_pos ⟨Or.inl ⟨rfl, hp.2.1⟩, Or.inl ⟨rfl, hp.2.2.2⟩⟩]
    rfl

theorem blackCorner_quadrant : QuadrantRaster blackCorner 1 1 1 1 := by
  refine ⟨by decide, by decide, by decide, by decide, ?_⟩
  intro x y hx0 hx hy0 hy
  have hx3 : x < 3 := hx
  have hy3 : y < 3 := hy
  interval_cases x <;> interval_cases y <;> rfl

theorem blackOrigin_quadrant : QuadrantRaster blackOrigin 1 1 0 0 := by
  refine ⟨by decide, by decide, by decide, by decide, ?_⟩
  intro x y hx0 hx hy0 hy
  have hx3 : x < 3 := hx
  have hy3 : y < 3 := hy
  interval_cases x <;> interval_cases y <;> rfl


/-! ## Rectangles between increasing boundaries -/

theorem Rect_of_le {x0 y0 x1 y1 : Int} (hx : x0 ≤ x1) (hy : y0 ≤ y1) :
    Rect x0 y0 x1 y1 = ⟨x0, y0, x1, y1⟩ := by
  unfold Rect
  rw [if_neg (by omega), if_neg (by omega), if_neg (by omega), if_neg (by omega)]

theorem getD_rel_of_pairwise {R : Int → Int → Prop} {l : List Int} (h : List.Pairwise R l)
    {i j : Nat} (hij : i < j) (hj : j < l.length) : R (l.getD i 0) (l.getD j 0) := by
  rw [List.getD_eq_getElem l 0 (by omega), List.getD_eq_getElem l 0 hj]
  exact List.pairwise_iff_getElem.mp h i j (by omega) hj hij

/-- No element of a strictly increasing list lies strictly between two neighbours. -/
theorem not_mem_of_between {l : List Int} (h : List.Pairwise (· < ·) l) {j : Nat}
    (hj : j + 1 < l.length) {x : Int} (h1 : l.getD j 0 < x) (h2 : x < l.getD (j + 1) 0) :
    x ∉ l := by
  intro hx
  obtain ⟨k, hk, rfl⟩ := List.getElem_of_mem hx
  rw [← List.getD_eq_getElem l 0 hk] at h1 h2
  rcases Nat.lt_trichotomy k j with hkj | hkj | hkj
  · have := getD_rel_of_pairwise h hkj (by omega)
    omega
  · subst hkj
    omega
  · rcases Nat.eq_or_lt_of_le (show j + 1 ≤ k from hkj) with e | e
    · rw [← e] at h2
      exact lt_irrefl _ h2
    · have := getD_rel_of_pairwise h e hk
      omega

theorem mem_cell_pixels {l m : List Int} (hl : List.Pairwise (· < ·) l)
    (hm : List.Pairwise (· < ·) m) {i j : Nat} (hi : i + 1 < m.length)
    (hj : j + 1 < l.length) (x y : Int) :
    (x, y) ∈ rectPixels (Rect (l.getD j 0 + 1) (m.getD i 0 + 1) (l.getD (j + 1) 0)
        (m.getD (i + 1) 0)) ↔
      l.getD j 0 < x ∧ x < l.getD (j + 1) 0 ∧ m.getD i 0 < y ∧ y < m.getD (i + 1) 0 := by
  have h1 : l.getD j 0 < l.getD (j + 1) 0 := getD_rel_of_pairwise hl (Nat.lt_succ_self j) hj
  have h2 : m.getD i 0 < m.getD (i + 1) 0 := getD_rel_of_pairwise hm (Nat.lt_succ_self i) hi
  rw [Rect_of_le (by omega) (by omega), mem_rectPixels]
  simp only
  omega

theorem blackPair_RGBA (x y : Int) : RGBA blackPair x y = 0 := by
  unfold RGBA
  split <;> rfl

/-! ## The threshold and the order of the findings -/

theorem checkCellForMines_minLevel (nanLevel : Int) (img : Raster) (rect : Rectangle)
    (m m' : Int) :
    checkCellForMines nanLevel img rect m = checkCellForMines nanLevel img rect m' := rfl

theorem cellFindings_succ (nanLevel : Int) (img : Raster) (k : Int) (vl : List Int) (iy : Nat)
    (minY maxY : Int) (ix : Nat) :
    cellFindings nanLevel img (k + 1) vl iy minY maxY ix =
      (cellFindings nanLevel img k vl iy minY maxY ix).filter
        (fun f => decide (k + 1 ≤ f.Level)) := by
  unfold cellFindings
  by_cases h1 : ix + 1 = vl.length
  · simp [h1]
  · simp only [h1, if_false]
    rw [checkCellForMines_minLevel nanLevel img _ (k + 1) k]
    generalize checkCellForMines nanLevel img
      (Rect (vl.getD ix 0 + 1) (minY + 1) (vl.getD (ix + 1) 0) maxY) k = d
    by_cases h2 : k + 1 ≤ d
    · have h3 : k ≤ d := by omega
      rw [if_pos h2, if_pos h3]
      simp [h2]
    · rw [if_neg h2]
      split
      · simp [h2]
      · simp

theorem rowFindings_succ (nanLevel : Int) (img : Raster) (k : Int) (hl vl : List Int)
    (iy : Nat) :
    rowFindings nanLevel img (k + 1) hl vl iy =
      (rowFindings nanLevel img k hl vl iy).filter (fun f => decide (k + 1 ≤ f.Level)) := by
  unfold rowFindings
  split
  · simp
  · rw [List.filter_flatMap]
    rw [show cellFindings nanLevel img (k + 1) vl iy (hl.getD iy 0) (hl.getD (iy + 1) 0) =
      fun ix => (cellFindings nanLevel img k vl iy (hl.getD iy 0) (hl.getD (iy + 1) 0) ix).filter
        (fun f => decide (k + 1 ≤ f.Level)) from
      funext (cellFindings_succ nanLevel img k vl iy _ _)]

theorem findMinesInImage_succ (nanLevel : Int) (img : Raster) (k : Int) :
    findMinesInImage nanLevel img (k + 1) =
      (findMinesInImage nanLevel img k).filter (fun f => decide (k + 1 ≤ f.Level)) := by
  rw [findMinesInImage_eq, findMinesInImage_eq, List.filter_flatMap]
  rw [show rowFindings nanLevel img (k + 1) (findHorizontalWhileLines img)
      (findVerticalWhileLines img) =
    fun iy => (rowFindings nanLevel img k (findHorizontalWhileLines img)
      (findVerticalWhileLines img) iy).filter (fun f => decide (k + 1 ≤ f.Level)) from
    funext (rowFindings_succ nanLevel img k _ _)]

theorem findMinesInImage_rowMajor (nanLevel : Int) (img : Raster) (minLevel : Int) :
    List.Pairwise RowMajor (findMinesInImage nanLevel img minLevel) := by
  rw [findMinesInImage_eq, List.pairwise_flatMap]
  constructor
  · intro iy _
    unfold rowFindings
    split
    · exact List.Pairwise.nil
    · rw [List.pairwise_flatMap]
      constructor
      · intro ix _
        unfold cellFindings
        split
        · exact List.Pairwise.nil
        · dsimp only
          split
          · exact List.pairwise_singleton _ _
          · exact List.Pairwise.nil
      · refine (List.pairwise_lt_range _).imp ?_
        intro a b hab f hf g hg
        rw [mem_cellFindings] at hf hg
        right
        exact ⟨by rw [hf.2.2.1, hg.2.2.1], by rw [hf.2.1, hg.2.1]; exact_mod_cast hab⟩
  · refine (List.pairwise_lt_range _).imp ?_
    intro a b hab f hf g hg
    unfold rowFindings at hf hg
    split at hf
    · simp at hf
    split at hg
    · simp at hg
    simp only [List.mem_flatMap, List.mem_range] at hf hg
    obtain ⟨i1, -, h1⟩ := hf
    obtain ⟨i2, -, h2⟩ := hg
    rw [mem_cellFindings] at h1 h2
    left
    rw [h1.2.2.1, h2.2.2.1]
    exact_mod_cast hab

/-! ## The sampling cap of the white-line checks -/

theorem isHorizontalWhiteLine_congr (img1 img2 : Raster) (y : Int)
    (hw : img1.width = img2.width)
    (h : ∀ x : Int, 0 ≤ x → x < img1.width → x < 1000 → RGBA img1 x y = RGBA img2 x y) :
    isHorizontalWhiteLine img1 y = isHorizontalWhiteLine img2 y := by
  unfold isHorizontalWhiteLine
  rw [← hw, Bool.eq_iff_iff, List.all_eq_true, List.all_eq_true]
  have hx : ∀ x ∈ intRange 0 (if (img1.width : Int) < 1000 then (img1.width : Int) else 1000),
      RGBA img1 x y = RGBA img2 x y := by
    intro x hx
    rw [mem_intRange] at hx
    exact h x hx.1 (by split at hx <;> omega) (by split at hx <;> omega)
  constructor
  · intro h1 x hm
    rw [← hx x hm]
    exact h1 x hm
  · intro h1 x hm
    rw [hx x hm]
    exact h1 x hm

theorem isVerticalWhiteLine_congr (img1 img2 : Raster) (x : Int)
    (hh : img1.height = img2.height)
    (h : ∀ y : Int, 0 ≤ y → y < img1.height → y < 1000 → RGBA img1 x y = RGBA img2 x y) :
    isVerticalWhiteLine img1 x = isVerticalWhiteLine img2 x := by
  unfold isVerticalWhiteLine
  rw [← hh, Bool.eq_iff_iff, List.all_eq_true, List.all_eq_true]
  have hy : ∀ y ∈ intRange 0 (if (img1.height : Int) < 1000 then (img1.height : Int) else 1000),
      RGBA img1 x y = RGBA img2 x y := by
    intro y hy
    rw [mem_intRange] at hy
    exact h y hy.1 (by split at hy <;> omega) (by split at hy <;> omega)
  constructor
  · intro h1 y hm
    rw [← hy y hm]
    exact h1 y hm
  · intro h1 y hm
    rw [hy y hm]
    exact h1 y hm

theorem wideRow_RGBA (x : Int) (h0 : 0 ≤ x) (h1 : x < 1000) : RGBA wideRow x 0 = 65535 := by
  have hb : 0 ≤ x ∧ x < ((wideRow.width : Nat) : Int) ∧ (0 : Int) ≤ 0 ∧
      (0 : Int) < ((wideRow.height : Nat) : Int) := by
    refine ⟨h0, ?_, le_refl 0, by decide⟩
    have : ((wideRow.width : Nat) : Int) = 1001 := rfl
    omega
  unfold RGBA
  rw [if_pos hb]
  show (if x < 1000 then 65535 else 0) = 65535
  rw [if_pos h1]

theorem tallColumn_RGBA (y : Int) (h0 : 0 ≤ y) (h1 : y < 1000) : RGBA tallColumn 0 y = 65535 := by
  have hb : (0 : Int) ≤ 0 ∧ (0 : Int) < ((tallColumn.width : Nat) : Int) ∧ 0 ≤ y ∧
      y < ((tallColumn.height : Nat) : Int) := by
    refine ⟨le_refl 0, by decide, h0, ?_⟩
    have : ((tallColumn.height : Nat) : Int) = 1001 := rfl
    omega
  unfold RGBA
  rw [if_pos hb]
  show (if y < 1000 then 65535 else 0) = 65535
  rw [if_pos h1]

/-! ## 8-bit gray values -/

theorem grayChannel_tolerant (v : Nat) (hv : v ≤ 255) : 65280 ≤ grayChannel v ↔ v = 255 := by
  unfold grayChannel
  omega

theorem grayChannel_strict (v : Nat) (_hv : v ≤ 255) : grayChannel v = 65535 ↔ v = 255 := by
  unfold grayChannel
  omega

theorem grayChannel_shift (v : Nat) (hv : v ≤ 255) : grayChannel v >>> 8 = v := by
  unfold grayChannel
  rw [Nat.shiftRight_eq_div_pow]
  omega

theorem grayRaster_RGBA (w h : Nat) (Y : Int → Int → Nat) (x y : Int) :
    RGBA (grayRaster w h Y) x y =
      if 0 ≤ x ∧ x < (w : Int) ∧ 0 ≤ y ∧ y < (h : Int) then grayChannel (Y x y % 256) else 0 :=
  rfl

theorem grayRaster_tests_agree (w h : Nat) (Y : Int → Int → Nat) (x y : Int) :
    RGBA (grayRaster w h Y) x y < 65280 ↔ RGBA (grayRaster w h Y) x y ≠ 65535 := by
  rw [grayRaster_RGBA]
  split
  · have hv : Y x y % 256 ≤ 255 := by omega
    have h1 := grayChannel_tolerant _ hv
    have h2 := grayChannel_strict _ hv
    constructor
    · intro h3 h4
      omega
    · intro h3
      by_contra h4
      exact h3 (h2.mpr (h1.mp (by omega)))
  · simp

/-! ## The scanned boundaries, described from the white lines -/

theorem intRange_snoc {a b : Int} (h : a ≤ b) : intRange a (b + 1) = intRange a b ++ [b] := by
  rw [intRange_append h (by omega : b ≤ b + 1), intRange_cons (by omega : b < b + 1),
    intRange_of_le (le_refl (b + 1))]

theorem isLastWhite_unique {white : Int → Bool} {n p q : Int} (hp : IsLastWhite white n p)
    (hq : IsLastWhite white n q) : p = q := by
  rcases hp with ⟨rfl, h1⟩ | ⟨h1, h2, h3, h4⟩ <;> rcases hq with ⟨rfl, k1⟩ | ⟨k1, k2, k3, k4⟩
  · rfl
  · have := h1 q k1 k2
    rw [k3] at this
    exact absurd this (by decide)
  · have := k1 p h1 h2
    rw [h3] at this
    exact absurd this (by decide)
  · rcases lt_trichotomy p q with h | h | h
    · have := h4 q h k2
      rw [k3] at this
      exact absurd this (by decide)
    · exact h
    · have := k4 p h h2
      rw [h3] at this
      exact absurd this (by decide)

theorem isLastWhite_succ {white : Int → Bool} {n p : Int} (hn : 0 ≤ n)
    (hp : IsLastWhite white n p) :
    IsLastWhite white (n + 1) (if white n then n else p) := by
  by_cases hw : white n = true
  · rw [if_pos hw]
    exact Or.inr ⟨hn, by omega, hw, fun y h1 h2 => by omega⟩
  · rw [if_neg hw]
    have hw' : white n = false := by simpa using hw
    rcases hp with ⟨rfl, h1⟩ | ⟨h1, h2, h3, h4⟩
    · refine Or.inl ⟨rfl, fun y h2 h3 => ?_⟩
      rcases eq_or_lt_of_le (show y ≤ n by omega) with e | e
      · rw [e]; exact hw'
      · exact h1 y h2 e
    · refine Or.inr ⟨h1, by omega, h3, fun y h5 h6 => ?_⟩
      rcases eq_or_lt_of_le (show y ≤ n by omega) with e | e
      · rw [e]; exact hw'
      · exact h4 y h5 e

theorem isLastWhite_one (white : Int → Bool) :
    IsLastWhite white 1 (if white 0 then 0 else -1) := by
  by_cases hw : white 0 = true
  · rw [if_pos hw]
    exact Or.inr ⟨le_refl 0, by decide, hw, fun y h1 h2 => by omega⟩
  · rw [if_neg hw]
    refine Or.inl ⟨rfl, fun y h1 h2 => ?_⟩
    have : y = 0 := by omega
    rw [this]
    simpa using hw

/-- The last white index among `0, ..., n - 1` is `n - 1` exactly when `n - 1` is white. -/
theorem isLastWhite_eq_pred {white : Int → Bool} {n p : Int} (hn : 1 ≤ n)
    (hp : IsLastWhite white n p) : p = n - 1 ↔ white (n - 1) = true := by
  rcases hp with ⟨rfl, h1⟩ | ⟨h1, h2, h3, h4⟩
  · have := h1 (n - 1) (by omega) (by omega)
    rw [this]
    constructor
    · intro h; omega
    · intro h; exact absurd h (by decide)
  · constructor
    · intro h; rw [← h]; exact h3
    · intro h
      by_contra hne
      have := h4 (n - 1) (by omega) (by omega)
      rw [h] at this
      exact absurd this (by decide)

/-- The scan over the indices `1, ..., n`, started from the seed: it collects the rising
edges, and its previous white line is the last white index among `0, ..., n`. -/
theorem scan_from_one (white : Int → Bool) (n : Nat) :
    ∃ p : Int, IsLastWhite white (1 + n) p ∧
      (intRange 1 (1 + n)).foldl (scanStep white)
          ([if white 0 then 0 else -1], if white 0 then 0 else -1) =
        ([if white 0 then (0 : Int) else -1] ++ risingEdges white (1 + n), p) := by
  induction n with
  | zero =>
    refine ⟨if white 0 then 0 else -1, isLastWhite_one white, ?_⟩
    simp [risingEdges, intRange_of_le]
  | succ n ih =>
    obtain ⟨p, hp, hfold⟩ := ih
    have e : (1 : Int) + ((n + 1 : Nat) : Int) = (1 + n) + 1 := by push_cast; ring
    have hle : (1 : Int) ≤ 1 + n := by omega
    refine ⟨if white (1 + n) then 1 + n else p, ?_, ?_⟩
    · rw [e]
      exact isLastWhite_succ (by omega) hp
    · have hpred := isLastWhite_eq_pred hle hp
      have hn1 : (1 + (n : Int)) - 1 = n := by ring
      rw [hn1] at hpred
      rw [e, intRange_snoc hle, List.foldl_append, hfold]
      unfold risingEdges
      rw [intRange_snoc hle, List.filter_append, List.foldl_cons, List.foldl_nil]
      unfold scanStep
      by_cases hw : white (1 + n) = true
      · simp only [hw, if_true]
        by_cases hq : white (n : Int) = true
        · have hp1 : p + 1 = 1 + n := by have := hpred.mpr hq; omega
          simp [hq, hw, hp1]
        · have hp1 : ¬ (p + 1 = 1 + n) := fun h => hq (hpred.mp (by omega))
          have hq' : white (n : Int) = false := by simpa using hq
          simp [hq', hw, hp1]
      · have hw' : white (1 + (n : Int)) = false := by simpa using hw
        simp [hw']

/-- Re-examining the index `0` after a seed of `-1` changes nothing: the row loop, which
starts at `prevWhiteLineAtY + 1`, gives the same state as a loop that starts at `1`. -/
theorem scan_start (white : Int → Bool) (n : Int) :
    (intRange ((if white 0 then (0 : Int) else -1) + 1) n).foldl (scanStep white)
        ([if white 0 then 0 else -1], if white 0 then 0 else -1) =
      (intRange 1 n).foldl (scanStep white)
        ([if white 0 then 0 else -1], if white 0 then 0 else -1) := by
  by_cases hw : white 0 = true
  · simp [hw]
  · have hw' : white 0 = false := by simpa using hw
    simp only [hw', Bool.false_eq_true, if_false]
    rw [show ((-1 : Int) + 1) = 0 from rfl]
    by_cases hn : 0 < n
    · rw [intRange_cons hn, List.foldl_cons]
      have : scanStep white ([-1], -1) 0 = ([-1], -1) := by
        unfold scanStep
        simp [hw']
      rw [this]
      rfl
    · rw [intRange_of_le (by omega : n ≤ 0), intRange_of_le (by omega : n ≤ 1)]

theorem vertical_from_white (img : Raster) (hw : 1 ≤ img.width) :
    findVerticalWhileLines img =
      [if isVerticalWhiteLine img 0 then (0 : Int) else -1] ++
        risingEdges (isVerticalWhiteLine img) img.width ++
        (if isVerticalWhiteLine img ((img.width : Int) - 1) then [] else [(img.width : Int)]) := by
  obtain ⟨k, hk⟩ : ∃ k : Nat, (img.width : Int) = 1 + k := ⟨img.width - 1, by omega⟩
  obtain ⟨p, hp, hfold⟩ := scan_from_one (isVerticalWhiteLine img) k
  have hpred := isLastWhite_eq_pred (by omega : (1 : Int) ≤ 1 + k) hp
  unfold findVerticalWhileLines
  dsimp only
  rw [hk, hfold]
  dsimp only
  by_cases hq : isVerticalWhiteLine img (1 + (k : Int) - 1) = true
  · have hp1 : p + 1 = 1 + k := by have := hpred.mpr hq; omega
    rw [if_pos hq, if_neg (by simpa using hp1)]
    simp
  · have hp1 : p + 1 ≠ 1 + k := fun h => hq (hpred.mp (by omega))
    rw [if_neg hq, if_pos hp1]

theorem isHorizontalWhiteLine_of_height_zero (img : Raster) (hw : 1 ≤ img.width)
    (hh : img.height = 0) (y : Int) : isHorizontalWhiteLine img y = false := by
  apply isHorizontalWhiteLine_false img y 0 (le_refl 0) (by omega) (by decide)
  unfold RGBA
  rw [if_neg (by omega)]
  decide

theorem horizontal_from_white (img : Raster) (hne : ¬(img.width = 0 ∧ img.height = 0))
    (p : Int) (hp : IsLastWhite (isHorizontalWhiteLine img) img.height p) :
    findHorizontalWhileLines img =
      [if isHorizontalWhiteLine img 0 then (0 : Int) else -1] ++
        risingEdges (isHorizontalWhiteLine img) img.height ++
        (if p + 1 ≠ (img.width : Int) then [(img.width : Int)] else []) := by
  unfold findHorizontalWhileLines
  dsimp only
  rw [scan_start (isHorizontalWhiteLine img) img.height]
  by_cases hh : img.height = 0
  · have hw : 1 ≤ img.width := by
      rcases Nat.eq_zero_or_pos img.width with h0 | h0
      · exact absurd ⟨h0, hh⟩ hne
      · exact h0
    have hp1 : p = -1 := by
      rcases hp with ⟨h, -⟩ | ⟨h1, h2, -⟩
      · exact h
      · omega
    rw [isHorizontalWhiteLine_of_height_zero img hw hh 0, hp1, hh]
    simp [risingEdges, intRange_of_le]
    split <;> rfl
  · obtain ⟨k, hk⟩ : ∃ k : Nat, (img.height : Int) = 1 + k := ⟨img.height - 1, by omega⟩
    obtain ⟨q, hq, hfold⟩ := scan_from_one (isHorizontalWhiteLine img) k
    rw [hk] at hp ⊢
    rw [hfold, isLastWhite_unique hp hq]
    dsimp only
    split
    · rfl
    · rw [List.append_nil]

theorem transpose_RGBA (img : Raster) (x y : Int) :
    RGBA (transpose img) x y = RGBA img y x := by
  unfold RGBA transpose
  dsimp only
  by_cases h : 0 ≤ x ∧ x < (img.height : Int) ∧ 0 ≤ y ∧ y < (img.width : Int)
  · rw [if_pos h, if_pos ⟨h.2.2.1, h.2.2.2, h.1, h.2.1⟩]
  · rw [if_neg h, if_neg (fun h' => h ⟨h'.2.2.1, h'.2.2.2, h'.1, h'.2.1⟩)]

theorem gray_white_lines_agree (n : Nat) (Y : Int → Int → Nat) (y : Int) :
    isVerticalWhiteLine (transpose (grayRaster n n Y)) y =
      isHorizontalWhiteLine (grayRaster n n Y) y := by
  unfold isVerticalWhiteLine isHorizontalWhiteLine
  show (intRange 0 (if (n : Int) < 1000 then (n : Int) else 1000)).all _ =
    (intRange 0 (if (n : Int) < 1000 then (n : Int) else 1000)).all _
  rw [Bool.eq_iff_iff, List.all_eq_true, List.all_eq_true]
  have key : ∀ x : Int, (!decide (RGBA (transpose (grayRaster n n Y)) y x ≠ 65535)) =
      (!decide (RGBA (grayRaster n n Y) x y < 65280)) := by
    intro x
    rw [transpose_RGBA]
    congr 1
    exact decide_eq_decide.mpr (grayRaster_tests_agree n n Y x y).symm
  constructor
  · intro h x hx
    rw [← key x]
    exact h x hx
  · intro h x hx
    rw [key x]
    exact h x hx

theorem gray_square_detectors_agree (n : Nat) (Y : Int → Int → Nat) :
    findHorizontalWhileLines (grayRaster n n Y) =
      findVerticalWhileLines (transpose (grayRaster n n Y)) := by
  have hfun : isVerticalWhiteLine (transpose (grayRaster n n Y)) =
      isHorizontalWhiteLine (grayRaster n n Y) := funext (gray_white_lines_agree n Y)
  unfold findHorizontalWhileLines findVerticalWhileLines
  dsimp only
  rw [hfun, scan_start (isHorizontalWhiteLine (grayRaster n n Y))]
  rfl

theorem whiteWhiteBlack_lastWhite :
    IsLastWhite (isHorizontalWhiteLine whiteWhiteBlack) whiteWhiteBlack.height 1 := by
  refine Or.inr ⟨by decide, by decide, by decide, fun y h1 h2 => ?_⟩
  have h3 : ((whiteWhiteBlack.height : Nat) : Int) = 3 := rfl
  have h4 : y = 2 := by omega
  rw [h4]
  decide

/-! ## Error bounds for `float64` rounding -/

theorem roundHalfEven_abs_sub_le (q : ℚ) : |((roundHalfEven q : Int) : ℚ) - q| ≤ 1 / 2 := by
  have h0 : ((⌊q⌋ : Int) : ℚ) ≤ q := Int.floor_le q
  have h1 : q < ((⌊q⌋ : Int) : ℚ) + 1 := Int.lt_floor_add_one q
  unfold roundHalfEven
  dsimp only
  rw [abs_le]
  split_ifs <;> push_cast <;> constructor <;> linarith

/-- Rounding to `float64` changes a value by at most the fraction `2 ^ (-53)` of it. -/
theorem f64_abs_sub_le (q : ℚ) : |f64 q - q| ≤ |q| / 2 ^ 53 := by
  unfold f64
  by_cases hq : q = 0
  · simp [hq]
  · rw [if_neg hq]
    dsimp only
    have hpos : (0 : ℚ) < |q| := abs_pos.mpr hq
    have hlog : ((2 : ℕ) : ℚ) ^ Int.log 2 |q| ≤ |q| := Int.zpow_log_le_self one_lt_two hpos
    rw [Nat.cast_ofNat] at hlog
    generalize Int.log 2 |q| = L at hlog
    have hP : (0 : ℚ) < (2 : ℚ) ^ (L - 52) := zpow_pos (by norm_num) _
    have hsplit : (2 : ℚ) ^ (L - 52) = (2 : ℚ) ^ L / 2 ^ 52 := by
      rw [zpow_sub₀ (by norm_num : (2 : ℚ) ≠ 0)]
      norm_cast
    have hr := roundHalfEven_abs_sub_le (q / (2 : ℚ) ^ (L - 52))
    have heq : ((roundHalfEven (q / (2 : ℚ) ^ (L - 52)) : Int) : ℚ) * (2 : ℚ) ^ (L - 52) - q =
        (((roundHalfEven (q / (2 : ℚ) ^ (L - 52)) : Int) : ℚ) - q / (2 : ℚ) ^ (L - 52)) *
          (2 : ℚ) ^ (L - 52) := by
      field_simp
    rw [heq, abs_mul, abs_of_pos hP]
    calc |((roundHalfEven (q / (2 : ℚ) ^ (L - 52)) : Int) : ℚ) - q / (2 : ℚ) ^ (L - 52)| *
          (2 : ℚ) ^ (L - 52)
        ≤ 1 / 2 * (2 : ℚ) ^ (L - 52) := mul_le_mul_of_nonneg_right hr (le_of_lt hP)
      _ = (2 : ℚ) ^ L / 2 ^ 53 := by rw [hsplit]; ring
      _ ≤ |q| / 2 ^ 53 := div_le_div_of_nonneg_right hlog (by positivity)

theorem f64_le (q B : ℚ) (h0 : 0 ≤ q) (hB : q ≤ B) : f64 q ≤ B * (1 + 1 / 2 ^ 53) := by
  have h := f64_abs_sub_le q
  rw [abs_of_nonneg h0, abs_le] at h
  have : q * (1 + 1 / 2 ^ 53) ≤ B * (1 + 1 / 2 ^ 53) :=
    mul_le_mul_of_nonneg_right hB (by norm_num)
  linarith [h.2]

theorem le_f64 (q A : ℚ) (hA : 0 ≤ A) (hq : A ≤ q) : A * (1 - 1 / 2 ^ 53) ≤ f64 q := by
  have h0 : 0 ≤ q := le_trans hA hq
  have h := f64_abs_sub_le q
  rw [abs_of_nonneg h0, abs_le] at h
  have : A * (1 - 1 / 2 ^ 53) ≤ q * (1 - 1 / 2 ^ 53) :=
    mul_le_mul_of_nonneg_right hq (by norm_num)
  linarith [h.1]

theorem f64_nonneg (q : ℚ) (h0 : 0 ≤ q) : 0 ≤ f64 q := by
  have := le_f64 q 0 (le_refl 0) h0
  simpa using this

/-- The quotient that `checkCellForMines` rounds, for a sum `S` over `N` pixels: it is
within the fraction `2 ^ (-50)` of the exact value `100 * S / (255 * N)`. -/
theorem scaled_average_bounds (S N : ℚ) (hS : 0 ≤ S) (hN : 0 < N) :
    100 * S / (255 * N) * (1 - 1 / 2 ^ 50) ≤ f64 (f64 (100 * f64 (f64 S / f64 N)) / 255) ∧
      f64 (f64 (100 * f64 (f64 S / f64 N)) / 255) ≤ 100 * S / (255 * N) * (1 + 1 / 2 ^ 50) := by
  have ha1 := le_f64 S S hS (le_refl S)
  have ha2 := f64_le S S hS (le_refl S)
  have hb1 := le_f64 N N (le_of_lt hN) (le_refl N)
  have hb2 := f64_le N N (le_of_lt hN) (le_refl N)
  have hlo : (0 : ℚ) < 1 - 1 / 2 ^ 53 := by norm_num
  have hup : (0 : ℚ) < 1 + 1 / 2 ^ 53 := by norm_num
  have hbpos : 0 < f64 N := lt_of_lt_of_le (mul_pos hN hlo) hb1
  have ha0 : 0 ≤ f64 S := f64_nonneg S hS
  have hc0 : 0 ≤ f64 S / f64 N := div_nonneg ha0 (le_of_lt hbpos)
  have hc2 : f64 S / f64 N ≤ S * (1 + 1 / 2 ^ 53) / (N * (1 - 1 / 2 ^ 53)) :=
    div_le_div₀ (mul_nonneg hS (le_of_lt hup)) ha2 (mul_pos hN hlo) hb1
  have hc1 : S * (1 - 1 / 2 ^ 53) / (N * (1 + 1 / 2 ^ 53)) ≤ f64 S / f64 N :=
    div_le_div₀ ha0 ha1 hbpos hb2
  have hc1' : 0 ≤ S * (1 - 1 / 2 ^ 53) / (N * (1 + 1 / 2 ^ 53)) :=
    div_nonneg (mul_nonneg hS (le_of_lt hlo)) (le_of_lt (mul_pos hN hup))
  have hd2 := f64_le _ _ hc0 hc2
  have hd1 := le_f64 _ _ hc1' hc1
  have hd0 := f64_nonneg _ hc0
  have he0 : 0 ≤ 100 * f64 (f64 S / f64 N) := mul_nonneg (by norm_num) hd0
  have he2 : 100 * f64 (f64 S / f64 N) ≤
      100 * (S * (1 + 1 / 2 ^ 53) / (N * (1 - 1 / 2 ^ 53)) * (1 + 1 / 2 ^ 53)) :=
    mul_le_mul_of_nonneg_left hd2 (by norm_num)
  have he1 : 100 * (S * (1 - 1 / 2 ^ 53) / (N * (1 + 1 / 2 ^ 53)) * (1 - 1 / 2 ^ 53)) ≤
      100 * f64 (f64 S / f64 N) :=
    mul_le_mul_of_nonneg_left hd1 (by norm_num)
  have he1' : 0 ≤ 100 * (S * (1 - 1 / 2 ^ 53) / (N * (1 + 1 / 2 ^ 53)) * (1 - 1 / 2 ^ 53)) :=
    mul_nonneg (by norm_num) (mul_nonneg hc1' (le_of_lt hlo))
  have ht2 := f64_le _ _ he0 he2
  have ht1 := le_f64 _ _ he1' he1
  have ht0 := f64_nonneg _ he0
  have hg0 : 0 ≤ f64 (100 * f64 (f64 S / f64 N)) / 255 := div_nonneg ht0 (by norm_num)
  have hg2 := div_le_div_of_nonneg_right ht2 (by norm_num : (0 : ℚ) ≤ 255)
  have hg1 := div_le_div_of_nonneg_right ht1 (by norm_num : (0 : ℚ) ≤ 255)
  have hg1' : 0 ≤ 100 * (S * (1 - 1 / 2 ^ 53) / (N * (1 + 1 / 2 ^ 53)) * (1 - 1 / 2 ^ 53)) *
      (1 - 1 / 2 ^ 53) / 255 :=
    div_nonneg (mul_nonneg he1' (le_of_lt hlo)) (by norm_num)
  have hu2 := f64_le _ _ hg0 hg2
  have hu1 := le_f64 _ _ hg1' hg1
  have hx : 0 ≤ 100 * S / (255 * N) := by positivity
  have hN' : N ≠ 0 := ne_of_gt hN
  constructor
  · refine le_trans ?_ hu1
    have e : 100 * (S * (1 - 1 / 2 ^ 53) / (N * (1 + 1 / 2 ^ 53)) * (1 - 1 / 2 ^ 53)) *
        (1 - 1 / 2 ^ 53) / 255 * (1 - 1 / 2 ^ 53) =
        100 * S / (255 * N) * ((1 - 1 / 2 ^ 53) ^ 4 / (1 + 1 / 2 ^ 53)) := by
      field_simp
      ring
    rw [e]
    exact mul_le_mul_of_nonneg_left (by norm_num) hx
  · refine le_trans hu2 ?_
    have e : 100 * (S * (1 + 1 / 2 ^ 53) / (N * (1 - 1 / 2 ^ 53)) * (1 + 1 / 2 ^ 53)) *
        (1 + 1 / 2 ^ 53) / 255 * (1 + 1 / 2 ^ 53) =
        100 * S / (255 * N) * ((1 + 1 / 2 ^ 53) ^ 4 / (1 - 1 / 2 ^ 53)) := by
      field_simp
      ring
    rw [e]
    exact mul_le_mul_of_nonneg_left (by norm_num) hx

/-! ## The sum and the number of the pixels of a rectangle -/

theorem length_intRange (a b : Int) : (intRange a b).length = (b - a).toNat := by
  unfold intRange
  simp

theorem length_rectPixels (rect : Rectangle) :
    (rectPixels rect).length = (rect.MaxY - rect.MinY).toNat * (rect.MaxX - rect.MinX).toNat := by
  unfold rectPixels
  rw [← length_intRange rect.MinY rect.MaxY]
  generalize intRange rect.MinY rect.MaxY = ys
  induction ys with
  | nil => simp
  | cons y ys ih =>
    rw [List.flatMap_cons, List.length_append, ih, List.length_map, length_intRange,
      List.length_cons]
    ring

theorem pixelCount_eq_length (rect : Rectangle) (hx : rect.MinX < rect.MaxX)
    (hy : rect.MinY < rect.MaxY) : rect.Dx * rect.Dy = ((rectPixels rect).length : Int) := by
  rw [length_rectPixels]
  unfold Rectangle.Dx Rectangle.Dy
  push_cast
  rw [Int.toNat_of_nonneg (by omega), Int.toNat_of_nonneg (by omega)]
  ring

theorem foldl_add_eq (g : Int × Int → Int) (ps : List (Int × Int)) (a : Int) :
    ps.foldl (fun s p => s + g p) a = a + (ps.map g).sum := by
  induction ps generalizing a with
  | nil => simp
  | cons p ps ih =>
    rw [List.foldl_cons, ih, List.map_cons, List.sum_cons]
    ring

theorem colorSum_eq_sum (img : Raster) (rect : Rectangle) :
    colorSum img rect =
      ((rectPixels rect).map (fun p => ((RGBA img p.1 p.2 >>> 8 : Nat) : Int))).sum := by
  unfold colorSum
  rw [foldl_add_eq (fun p => ((RGBA img p.1 p.2 >>> 8 : Nat) : Int)), zero_add]

theorem sum_map_const (g : Int × Int → Int) (c : Int) (ps : List (Int × Int))
    (h : ∀ p ∈ ps, g p = c) : (ps.map g).sum = (ps.length : Int) * c := by
  induction ps with
  | nil => simp
  | cons p ps ih =>
    rw [List.map_cons, List.sum_cons, h p (List.mem_cons_self _ _),
      ih (fun q hq => h q (List.mem_cons_of_mem _ hq)), List.length_cons]
    push_cast
    ring

theorem sum_map_bounds (g : Int × Int → Int) (c : Int) (ps : List (Int × Int))
    (h : ∀ p ∈ ps, 0 ≤ g p ∧ g p ≤ c) :
    0 ≤ (ps.map g).sum ∧ (ps.map g).sum ≤ (ps.length : Int) * c := by
  induction ps with
  | nil => simp
  | cons p ps ih =>
    have h1 := h p (List.mem_cons_self _ _)
    have h2 := ih (fun q hq => h q (List.mem_cons_of_mem _ hq))
    rw [List.map_cons, List.sum_cons, List.length_cons]
    push_cast
    constructor
    · omega
    · linarith [h1.2, h2.2]

theorem RGBA_le (img : Raster) (hpix : ∀ x y : Int, img.pix x y ≤ 65535) (x y : Int) :
    RGBA img x y ≤ 65535 := by
  unfold RGBA
  split
  · exact hpix x y
  · exact Nat.zero_le _

theorem colorSum_bounds (img : Raster) (hpix : ∀ x y : Int, img.pix x y ≤ 65535)
    (rect : Rectangle) :
    0 ≤ colorSum img rect ∧ colorSum img rect ≤ ((rectPixels rect).length : Int) * 255 := by
  rw [colorSum_eq_sum]
  apply sum_map_bounds
  intro p _
  have h := RGBA_le img hpix p.1 p.2
  have h2 : RGBA img p.1 p.2 >>> 8 ≤ 255 := by
    rw [Nat.shiftRight_eq_div_pow]
    omega
  constructor
  · exact Int.natCast_nonneg _
  · exact_mod_cast h2

theorem colorSum_uniform (img : Raster) (rect : Rectangle) (v : Nat) (hv : v ≤ 255)
    (h : ∀ p ∈ rectPixels rect, RGBA img p.1 p.2 = grayChannel v) :
    colorSum img rect = ((rectPixels rect).length : Int) * v := by
  rw [colorSum_eq_sum]
  apply sum_map_const
  intro p hp
  rw [h p hp, grayChannel_shift v hv]

/-! ## The level of a cell -/

theorem goRound_of_nonneg (u : ℚ) (hu : 0 ≤ u) : goRound u = ⌊u + 1 / 2⌋ := by
  unfold goRound
  rw [if_pos hu]

/-- Rounding `100 * v / 255` half away from zero, in integer arithmetic. -/
theorem goRound_exact (v : Nat) : goRound (100 * (v : ℚ) / 255) = ((200 * v + 255) / 510 : Nat) := by
  rw [goRound_of_nonneg _ (by positivity), Int.floor_eq_iff]
  have h1 := Nat.div_add_mod (200 * v + 255) 510
  have h2 := Nat.mod_lt (200 * v + 255) (by norm_num : 510 > 0)
  generalize (200 * v + 255) / 510 = k at h1 ⊢
  generalize (200 * v + 255) % 510 = r at h1 h2
  have h3 : (200 * (v : ℚ) + 255) = 510 * k + r := by exact_mod_cast h1.symm
  have h4 : (r : ℚ) < 510 := by exact_mod_cast h2
  have h5 : (0 : ℚ) ≤ r := Nat.cast_nonneg r
  have e : 100 * (v : ℚ) / 255 + 1 / 2 = (510 * k + r) / 510 := by
    rw [← h3]
    ring
  rw [e]
  push_cast
  constructor
  · rw [le_div_iff₀ (by norm_num)]
    linarith
  · rw [div_lt_iff₀ (by norm_num)]
    linarith

/-- A value within the fraction `2 ^ (-50)` of `100 * v / 255` rounds like it: the exact
quotient is never closer than `1 / 102` to a half-integer. -/
theorem goRound_near (v : Nat) (hv : v ≤ 255) (u : ℚ)
    (h1 : 100 * (v : ℚ) / 255 * (1 - 1 / 2 ^ 50) ≤ u)
    (h2 : u ≤ 100 * (v : ℚ) / 255 * (1 + 1 / 2 ^ 50)) :
    goRound u = ((200 * v + 255) / 510 : Nat) := by
  have hv' : (v : ℚ) ≤ 255 := by exact_mod_cast hv
  have hv0 : (0 : ℚ) ≤ v := Nat.cast_nonneg v
  have hu : 0 ≤ u := le_trans (by positivity) h1
  rw [goRound_of_nonneg u hu, Int.floor_eq_iff]
  have k1 := Nat.div_add_mod (200 * v + 255) 510
  have k2 := Nat.mod_lt (200 * v + 255) (by norm_num : 510 > 0)
  have k0 : 5 ≤ (200 * v + 255) % 510 := by omega
  have k9 : (200 * v + 255) % 510 ≤ 505 := by omega
  generalize (200 * v + 255) / 510 = k at k1 ⊢
  generalize (200 * v + 255) % 510 = r at k1 k2 k0 k9
  have h3 : (200 * (v : ℚ) + 255) = 510 * k + r := by exact_mod_cast k1.symm
  have h4 : (r : ℚ) ≤ 505 := by exact_mod_cast k9
  have h5 : (5 : ℚ) ≤ r := by exact_mod_cast k0
  have hx : 100 * (v : ℚ) / 255 = (510 * k + r - 255) / 510 := by
    rw [← h3]
    field_simp
    ring
  rw [hx] at h1 h2
  have hb : (510 * (k : ℚ) + r - 255) / 510 ≤ 100 := by
    rw [← hx, div_le_iff₀ (by norm_num)]
    linarith
  have hb0 : 0 ≤ (510 * (k : ℚ) + r - 255) / 510 := by
    rw [← hx]
    positivity
  push_cast
  constructor
  · have : (510 * (k : ℚ) + r - 255) / 510 * (1 - 1 / 2 ^ 50) ≥
        (510 * (k : ℚ) + r - 255) / 510 - 100 * (1 / 2 ^ 50) := by nlinarith
    have e : (510 * (k : ℚ) + r - 255) / 510 = k + (r - 255) / 510 := by ring
    rw [e] at this h1
    have : (5 - 255 : ℚ) / 510 ≤ ((r : ℚ) - 255) / 510 :=
      div_le_div_of_nonneg_right (by linarith) (by norm_num)
    norm_num at this ⊢
    nlinarith
  · have : (510 * (k : ℚ) + r - 255) / 510 * (1 + 1 / 2 ^ 50) ≤
        (510 * (k : ℚ) + r - 255) / 510 + 100 * (1 / 2 ^ 50) := by nlinarith
    have e : (510 * (k : ℚ) + r - 255) / 510 = k + (r - 255) / 510 := by ring
    rw [e] at this h2
    have : ((r : ℚ) - 255) / 510 ≤ (505 - 255 : ℚ) / 510 :=
      div_le_div_of_nonneg_right (by linarith) (by norm_num)
    norm_num at this ⊢
    nlinarith

theorem checkCellForMines_uniform (nanLevel : Int) (img : Raster) (rect : Rectangle)
    (minLevel : Int) (v : Nat) (hv : v ≤ 255) (hx : rect.MinX < rect.MaxX)
    (hy : rect.MinY < rect.MaxY)
    (h : ∀ p ∈ rectPixels rect, RGBA img p.1 p.2 = grayChannel v) :
    checkCellForMines nanLevel img rect minLevel = 100 - ((200 * v + 255) / 510 : Nat) := by
  have hN := pixelCount_eq_length rect hx hy
  have hpos : 0 < rect.Dx * rect.Dy := by
    unfold Rectangle.Dx Rectangle.Dy
    exact mul_pos (by omega) (by omega)
  have hS := colorSum_uniform img rect v hv h
  unfold checkCellForMines
  dsimp only
  rw [if_neg (ne_of_gt hpos), hS, hN]
  rw [hN] at hpos
  have hNq : (0 : ℚ) < ((rectPixels rect).length : ℚ) := by exact_mod_cast hpos
  have hb := scaled_average_bounds (((rectPixels rect).length : ℚ) * v)
    ((rectPixels rect).length : ℚ) (by positivity) hNq
  have e : 100 * (((rectPixels rect).length : ℚ) * (v : ℚ)) /
      (255 * ((rectPixels rect).length : ℚ)) = 100 * (v : ℚ) / 255 := by
    field_simp
    ring
  rw [e] at hb
  rw [Int.cast_mul, Int.cast_natCast, Int.cast_natCast, goRound_near v hv _ hb.1 hb.2]

theorem checkCellForMines_range (nanLevel : Int) (img : Raster)
    (hpix : ∀ x y : Int, img.pix x y ≤ 65535) (rect : Rectangle) (minLevel : Int)
    (hx : rect.MinX < rect.MaxX) (hy : rect.MinY < rect.MaxY) :
    0 ≤ checkCellForMines nanLevel img rect minLevel ∧
      checkCellForMines nanLevel img rect minLevel ≤ 100 := by
  have hN := pixelCount_eq_length rect hx hy
  have hpos : 0 < rect.Dx * rect.Dy := by
    unfold Rectangle.Dx Rectangle.Dy
    exact mul_pos (by omega) (by omega)
  obtain ⟨hS0, hS1⟩ := colorSum_bounds img hpix rect
  unfold checkCellForMines
  dsimp only
  rw [if_neg (ne_of_gt hpos), hN]
  rw [hN] at hpos
  have hNq : (0 : ℚ) < (((rectPixels rect).length : Int) : ℚ) := by exact_mod_cast hpos
  have hSq0 : (0 : ℚ) ≤ ((colorSum img rect : Int) : ℚ) := by exact_mod_cast hS0
  have hSq1 : ((colorSum img rect : Int) : ℚ) ≤ (((rectPixels rect).length : Int) : ℚ) * 255 := by
    exact_mod_cast hS1
  obtain ⟨hb1, hb2⟩ := scaled_average_bounds _ _ hSq0 hNq
  generalize ((colorSum img rect : Int) : ℚ) = S at *
  generalize (((rectPixels rect).length : Int) : ℚ) = N at *
  generalize f64 (f64 (100 * f64 (f64 S / f64 N)) / 255) = u at *
  have hx0 : 0 ≤ 100 * S / (255 * N) := by positivity
  have hx1 : 100 * S / (255 * N) ≤ 100 := by
    rw [div_le_iff₀ (by positivity)]
    nlinarith
  have hu0 : 0 ≤ u := le_trans (mul_nonneg hx0 (by norm_num)) hb1
  have hu1 : u ≤ 100 * (1 + 1 / 2 ^ 50) :=
    le_trans hb2 (mul_le_mul_of_nonneg_right hx1 (by norm_num))
  rw [goRound_of_nonneg u hu0]
  have h0 : 0 ≤ ⌊u + 1 / 2⌋ := Int.floor_nonneg.mpr (by linarith)
  have h1 : ⌊u + 1 / 2⌋ < 101 := by
    rw [Int.floor_lt]
    norm_num at hu1 ⊢
    linarith
  omega

theorem Rect_wellFormed (x0 y0 x1 y1 : Int) :
    (Rect x0 y0 x1 y1).MinX ≤ (Rect x0 y0 x1 y1).MaxX ∧
      (Rect x0 y0 x1 y1).MinY ≤ (Rect x0 y0 x1 y1).MaxY := by
  unfold Rect
  dsimp only
  constructor <;> split <;> omega

theorem strict_of_area_ne_zero (rect : Rectangle) (hx : rect.MinX ≤ rect.MaxX)
    (hy : rect.MinY ≤ rect.MaxY) (h : rect.Dx * rect.Dy ≠ 0) :
    rect.MinX < rect.MaxX ∧ rect.MinY < rect.MaxY := by
  unfold Rectangle.Dx Rectangle.Dy at h
  constructor
  · rcases eq_or_lt_of_le hx with e | e
    · exact absurd (by rw [e]; simp) h
    · exact e
  · rcases eq_or_lt_of_le hy with e | e
    · exact absurd (by rw [e]; simp) h
    · exact e

theorem findMinesInImage_above_hundred (nanLevel : Int) (img : Raster)
    (hpix : ∀ x y : Int, img.pix x y ≤ 65535)
    (harea : ∀ i j : Nat, i + 1 < (findHorizontalWhileLines img).length →
      j + 1 < (findVerticalWhileLines img).length →
      (Rect ((findVerticalWhileLines img).getD j 0 + 1)
        ((findHorizontalWhileLines img).getD i 0 + 1)
        ((findVerticalWhileLines img).getD (j + 1) 0)
        ((findHorizontalWhileLines img).getD (i + 1) 0)).Dx *
      (Rect ((findVerticalWhileLines img).getD j 0 + 1)
        ((findHorizontalWhileLines img).getD i 0 + 1)
        ((findVerticalWhileLines img).getD (j + 1) 0)
        ((findHorizontalWhileLines img).getD (i + 1) 0)).Dy ≠ 0) :
    findMinesInImage nanLevel img 101 = [] := by
  rw [List.eq_nil_iff_forall_not_mem]
  intro f hf
  rw [mem_findMinesInImage] at hf
  obtain ⟨iy, ix, hiy, hix, -, -, hl, hm⟩ := hf
  obtain ⟨w1, w2⟩ := Rect_wellFormed ((findVerticalWhileLines img).getD ix 0 + 1)
    ((findHorizontalWhileLines img).getD iy 0 + 1)
    ((findVerticalWhileLines img).getD (ix + 1) 0)
    ((findHorizontalWhileLines img).getD (iy + 1) 0)
  obtain ⟨s1, s2⟩ := strict_of_area_ne_zero _ w1 w2 (harea iy ix hiy hix)
  have := (checkCellForMines_range nanLevel img hpix _ 101 s1 s2).2
  rw [← hl] at this
  omega

theorem blackPair_area (i j : Nat) (hi : i + 1 < (findHorizontalWhileLines blackPair).length)
    (hj : j + 1 < (findVerticalWhileLines blackPair).length) :
    (Rect ((findVerticalWhileLines blackPair).getD j 0 + 1)
        ((findHorizontalWhileLines blackPair).getD i 0 + 1)
        ((findVerticalWhileLines blackPair).getD (j + 1) 0)
        ((findHorizontalWhileLines blackPair).getD (i + 1) 0)).Dx *
      (Rect ((findVerticalWhileLines blackPair).getD j 0 + 1)
        ((findHorizontalWhileLines blackPair).getD i 0 + 1)
        ((findVerticalWhileLines blackPair).getD (j + 1) 0)
        ((findHorizontalWhileLines blackPair).getD (i + 1) 0)).Dy ≠ 0 := by
  have h1 : findHorizontalWhileLines blackPair = [-1, 2] := by decide
  have h2 : findVerticalWhileLines blackPair = [-1, 2] := by decide
  rw [h1] at hi ⊢
  rw [h2] at hj ⊢
  simp only [List.length_cons, List.length_nil] at hi hj
  have hi0 : i = 0 := by omega
  have hj0 : j = 0 := by omega
  subst hi0 hj0
  decide

/-! ## The white-line checks and the scorer on 8-bit gray rasters -/

theorem gray_row_white_iff (w h : Nat) (Y : Int → Int → Nat) (y : Int) :
    isHorizontalWhiteLine (grayRaster w h Y) y = true ↔
      ∀ x : Int, 0 ≤ x → x < (w : Int) → x < 1000 →
        (0 ≤ y ∧ y < (h : Int) ∧ Y x y % 256 = 255) := by
  unfold isHorizontalWhiteLine
  rw [List.all_eq_true]
  show (∀ x ∈ intRange 0 (if (w : Int) < 1000 then (w : Int) else 1000),
    (!decide (RGBA (grayRaster w h Y) x y < 65280)) = true) ↔ _
  have key : ∀ x : Int, 0 ≤ x → x < (w : Int) →
      ((!decide (RGBA (grayRaster w h Y) x y < 65280)) = true ↔
        (0 ≤ y ∧ y < (h : Int) ∧ Y x y % 256 = 255)) := by
    intro x hx0 hx
    rw [grayRaster_RGBA]
    simp only [Bool.not_eq_true', decide_eq_false_iff_not, not_lt]
    by_cases hy : 0 ≤ y ∧ y < (h : Int)
    · rw [if_pos ⟨hx0, hx, hy.1, hy.2⟩, grayChannel_tolerant _ (by omega)]
      exact ⟨fun e => ⟨hy.1, hy.2, e⟩, fun e => e.2.2⟩
    · rw [if_neg (fun c => hy ⟨c.2.2.1, c.2.2.2⟩)]
      exact ⟨fun e => absurd e (by decide), fun e => absurd ⟨e.1, e.2.1⟩ hy⟩
  constructor
  · intro hall x hx0 hx hk
    exact (key x hx0 hx).mp (hall x (by rw [mem_intRange]; split <;> omega))
  · intro hall x hm
    rw [mem_intRange] at hm
    have hx : x < (w : Int) := by split at hm <;> omega
    have hk : x < 1000 := by split at hm <;> omega
    exact (key x hm.1 hx).mpr (hall x hm.1 hx hk)

theorem gray_column_white_iff (w h : Nat) (Y : Int → Int → Nat) (x : Int) :
    isVerticalWhiteLine (grayRaster w h Y) x = true ↔
      ∀ y : Int, 0 ≤ y → y < (h : Int) → y < 1000 →
        (0 ≤ x ∧ x < (w : Int) ∧ Y x y % 256 = 255) := by
  unfold isVerticalWhiteLine
  rw [List.all_eq_true]
  show (∀ y ∈ intRange 0 (if (h : Int) < 1000 then (h : Int) else 1000),
    (!decide (RGBA (grayRaster w h Y) x y ≠ 65535)) = true) ↔ _
  have key : ∀ y : Int, 0 ≤ y → y < (h : Int) →
      ((!decide (RGBA (grayRaster w h Y) x y ≠ 65535)) = true ↔
        (0 ≤ x ∧ x < (w : Int) ∧ Y x y % 256 = 255)) := by
    intro y hy0 hy
    rw [grayRaster_RGBA]
    simp only [Bool.not_eq_true', decide_eq_false_iff_not, not_not]
    by_cases hx : 0 ≤ x ∧ x < (w : Int)
    · rw [if_pos ⟨hx.1, hx.2, hy0, hy⟩, grayChannel_strict _ (by omega)]
      exact ⟨fun e => ⟨hx.1, hx.2, e⟩, fun e => e.2.2⟩
    · rw [if_neg (fun c => hx ⟨c.1, c.2.1⟩)]
      exact ⟨fun e => absurd e (by decide), fun e => absurd ⟨e.1, e.2.1⟩ hx⟩
  constructor
  · intro hall y hy0 hy hk
    exact (key y hy0 hy).mp (hall y (by rw [mem_intRange]; split <;> omega))
  · intro hall y hm
    rw [mem_intRange] at hm
    have hy : y < (h : Int) := by split at hm <;> omega
    have hk : y < 1000 := by split at hm <;> omega
    exact (key y hm.1 hy).mpr (hall y hm.1 hy hk)

/-- On a raster whose reads fail the row test exactly when they fail the column test, the
column check of the transposed raster is the row check. -/
theorem column_check_of_transpose (img : Raster)
    (ht : ∀ x y : Int, RGBA img x y < 65280 ↔ RGBA img x y ≠ 65535) (k : Int) :
    isVerticalWhiteLine (transpose img) k = isHorizontalWhiteLine img k := by
  unfold isVerticalWhiteLine isHorizontalWhiteLine
  show (intRange 0 (if (img.width : Int) < 1000 then (img.width : Int) else 1000)).all _ =
    (intRange 0 (if (img.width : Int) < 1000 then (img.width : Int) else 1000)).all _
  rw [Bool.eq_iff_iff, List.all_eq_true, List.all_eq_true]
  have key : ∀ x : Int, (!decide (RGBA (transpose img) k x ≠ 65535)) =
      (!decide (RGBA img x k < 65280)) := by
    intro x
    rw [transpose_RGBA]
    congr 1
    exact decide_eq_decide.mpr (ht x k).symm
  constructor
  · intro h x hx
    rw [← key x]
    exact h x hx
  · intro h x hx
    rw [key x]
    exact h x hx

theorem transpose_transpose (img : Raster) : transpose (transpose img) = img := rfl

theorem gray_checks_agree (w h : Nat) (Y : Int → Int → Nat) (k : Int) :
    isHorizontalWhiteLine (grayRaster w h Y) k =
        isVerticalWhiteLine (transpose (grayRaster w h Y)) k ∧
      isVerticalWhiteLine (grayRaster w h Y) k =
        isHorizontalWhiteLine (transpose (grayRaster w h Y)) k := by
  constructor
  · exact (column_check_of_transpose _ (grayRaster_tests_agree w h Y) k).symm
  · have h2 := column_check_of_transpose (transpose (grayRaster w h Y))
      (fun x y => by rw [transpose_RGBA]; exact grayRaster_tests_agree w h Y y x) k
    rw [transpose_transpose] at h2
    exact h2

theorem gray_colorSum (w h : Nat) (Y : Int → Int → Nat) (rect : Rectangle) :
    colorSum (grayRaster w h Y) rect =
      ((rectPixels rect).map (fun p =>
        if 0 ≤ p.1 ∧ p.1 < (w : Int) ∧ 0 ≤ p.2 ∧ p.2 < (h : Int)
        then ((Y p.1 p.2 % 256 : Nat) : Int) else 0)).sum := by
  rw [colorSum_eq_sum]
  congr 1
  apply List.map_congr_left
  intro p _
  rw [grayRaster_RGBA]
  split
  · rw [grayChannel_shift _ (by omega)]
  · rfl

theorem gray_checkCellForMines (nanLevel : Int) (w h : Nat) (Y : Int → Int → Nat)
    (rect : Rectangle) (minLevel : Int) :
    checkCellForMines nanLevel (grayRaster w h Y) rect minLevel =
      if rect.Dx * rect.Dy = 0 then nanLevel
      else 100 - goRound (f64 (f64 (100 * f64 (f64
        (((rectPixels rect).map (fun p =>
          if 0 ≤ p.1 ∧ p.1 < (w : Int) ∧ 0 ≤ p.2 ∧ p.2 < (h : Int)
          then ((Y p.1 p.2 % 256 : Nat) : Int) else 0)).sum : Int) /
        f64 ((rect.Dx * rect.Dy : Int)))) / 255)) := by
  unfold checkCellForMines
  rw [gray_colorSum]


/-! ## The claims -/

/-- C1: a record `{x, y, level}` is in the output of `findMinesInImage` exactly when
`0 ≤ y ≤ len(rows) - 2`, `0 ≤ x ≤ len(cols) - 2`, `level` is the score that
`checkCellForMines` gives for the rectangle `(cols[x]+1, rows[y]+1, cols[x+1], rows[y+1])`
and `level ≥ minLevel`; and no pair `(y, x)` occurs twice in the output. -/
theorem findMinesInImage_characterisation (nanLevel : Int) (img : Raster) (minLevel : Int) :
    (∀ x y s : Int,
      ({ X := x, Y := y, Level := s } : CellMineResult) ∈
          findMinesInImage nanLevel img minLevel ↔
        0 ≤ y ∧ y ≤ ((findHorizontalWhileLines img).length : Int) - 2 ∧
        0 ≤ x ∧ x ≤ ((findVerticalWhileLines img).length : Int) - 2 ∧
        s = checkCellForMines nanLevel img
          (Rect ((findVerticalWhileLines img).getD x.toNat 0 + 1)
            ((findHorizontalWhileLines img).getD y.toNat 0 + 1)
            ((findVerticalWhileLines img).getD (x.toNat + 1) 0)
            ((findHorizontalWhileLines img).getD (y.toNat + 1) 0)) minLevel ∧
        minLevel ≤ s) ∧
    ((findMinesInImage nanLevel img minLevel).map (fun f => (f.Y, f.X))).Nodup := by
  refine ⟨?_, findMinesInImage_keys_nodup nanLevel img minLevel⟩
  intro x y s
  rw [mem_findMinesInImage]
  constructor
  · rintro ⟨iy, ix, hiy, hix, hx, hy, hs, hm⟩
    simp only at hx hy hs hm
    subst hx hy
    simp only [Int.toNat_ofNat]
    exact ⟨by omega, by omega, by omega, by omega, hs, hm⟩
  · rintro ⟨hy0, hy, hx0, hx, hs, hm⟩
    refine ⟨y.toNat, x.toNat, by omega, by omega, ?_, ?_, hs, hm⟩
    · simp only; omega
    · simp only; omega

/-- C2 (as amended): for every raster other than the 0x0 one the column boundary list is
strictly increasing, and the row boundary list is strictly increasing whenever the
raster is not taller than wide. -/
theorem boundaries_strictly_increasing (img : Raster)
    (hne : ¬(img.width = 0 ∧ img.height = 0)) :
    List.Sorted (· < ·) (findVerticalWhileLines img) ∧
      (img.height ≤ img.width → List.Sorted (· < ·) (findHorizontalWhileLines img)) := by
  refine ⟨sorted_of_gaps (vertical_gaps img hne), fun h => ?_⟩
  have hw : 1 ≤ img.width := by
    rcases Nat.eq_zero_or_pos img.width with h0 | h0
    · exact absurd ⟨h0, Nat.le_zero.mp (h0 ▸ h)⟩ hne
    · exact h0
  exact sorted_of_gaps (horizontal_gaps img hw h)

/-- C2, witness: a 3x3 raster with one white row and one white column. -/
theorem boundaries_strictly_increasing_witness :
    ¬((3 : Nat) = 0 ∧ (3 : Nat) = 0) ∧
      List.Sorted (· < ·)
        (findVerticalWhileLines crossRaster) ∧
      List.Sorted (· < ·)
        (findHorizontalWhileLines crossRaster) :=
  ⟨by decide,
    (boundaries_strictly_increasing crossRaster
      (by decide)).1,
    (boundaries_strictly_increasing crossRaster
      (by decide)).2 (by decide)⟩

/-- C2, counterexample: on the 0x0 raster both detectors return `[0, 0]`, in which the
first element is not smaller than the element after it. -/
theorem empty_raster_boundaries_repeat :
    findHorizontalWhileLines emptyRaster = [0, 0] ∧
      findVerticalWhileLines emptyRaster = [0, 0] ∧
      ¬ List.Sorted (· < ·) (findHorizontalWhileLines emptyRaster) ∧
      ¬ List.Sorted (· < ·) (findVerticalWhileLines emptyRaster) := by
  have h1 : findHorizontalWhileLines emptyRaster = [0, 0] := by decide
  have h2 : findVerticalWhileLines emptyRaster = [0, 0] := by decide
  rw [h1, h2]
  simp

/-- C3, the code at the failing input: on the one-column raster white, white, black the
row boundaries are `[0, 1]` and the column boundaries `[-1, 1]`, so the only cell gets
the rectangle `(0, 1, 1, 1)` of area `0`, and it is scored all the same: its level is
the value that the division `0 / 0` leads to. -/
theorem zero_area_cell_is_scored :
    findHorizontalWhileLines whiteWhiteBlack = [0, 1] ∧
      findVerticalWhileLines whiteWhiteBlack = [-1, 1] ∧
      (Rect (-1 + 1) (0 + 1) 1 1).Dx * (Rect (-1 + 1) (0 + 1) 1 1).Dy = 0 ∧
      ∀ nanLevel : Int, findMinesInImage nanLevel whiteWhiteBlack 0 =
        if 0 ≤ nanLevel then [⟨0, 0, nanLevel⟩] else [] := by
  have h1 : findHorizontalWhileLines whiteWhiteBlack = [0, 1] := by decide
  have h2 : findVerticalWhileLines whiteWhiteBlack = [-1, 1] := by decide
  refine ⟨h1, h2, by decide, fun nanLevel => ?_⟩
  rw [findMinesInImage_single_cell nanLevel whiteWhiteBlack 0 0 1 (-1) 1 h1 h2,
    checkCellForMines_zero_area nanLevel whiteWhiteBlack _ 0 (by decide)]

/-- C4 (as amended): on a raster of width 0 and height 0 and for every `minLevel ≤ 100`,
`findMinesInImage` returns exactly one finding, `{x: 0, y: 0, level: 100}`. -/
theorem empty_raster_single_finding (nanLevel : Int) (img : Raster) (minLevel : Int)
    (hw : img.width = 0) (hh : img.height = 0) (hm : minLevel ≤ 100) :
    findMinesInImage nanLevel img minLevel = [⟨0, 0, 100⟩] := by
  rw [findMinesInImage_empty nanLevel img minLevel hw hh, if_pos hm]

/-- C4, witness: the empty raster at `minLevel = 50`. -/
theorem empty_raster_single_finding_witness :
    emptyRaster.width = 0 ∧ emptyRaster.height = 0 ∧ (50 : Int) ≤ 100 ∧
      findMinesInImage 0 emptyRaster 50 = [⟨0, 0, 100⟩] :=
  ⟨rfl, rfl, by decide, empty_raster_single_finding 0 emptyRaster 50 rfl rfl (by decide)⟩

/-- C4, counterexample: on the 0x0 raster with `minLevel = 0` the list of findings is not
empty. -/
theorem empty_raster_result_nonempty :
    findMinesInImage 0 emptyRaster 0 = [⟨0, 0, 100⟩] ∧
      findMinesInImage 0 emptyRaster 0 ≠ [] := by
  have h := findMinesInImage_empty 0 emptyRaster 0 rfl rfl
  rw [if_pos (by decide)] at h
  rw [h]
  exact ⟨rfl, by simp⟩

/-- C5 (as amended): on an all-white raster of width and height at least 1 the column
detector returns exactly `[0]`, and so does the row detector when the raster is square:
the extent is not appended after a white last line. -/
theorem all_white_boundaries (img : Raster) (hw : 1 ≤ img.width) (hh : 1 ≤ img.height)
    (hwhite : AllWhite img) :
    findVerticalWhileLines img = [0] ∧
      (img.height = img.width → findHorizontalWhileLines img = [0]) := by
  refine ⟨vertical_all_white img hw hwhite, fun he => ?_⟩
  rw [horizontal_all_white img hh hwhite, if_neg]
  rw [he]
  simp

/-- C5, witness: the raster of one white pixel. -/
theorem all_white_boundaries_witness :
    1 ≤ whitePixel.width ∧ 1 ≤ whitePixel.height ∧ AllWhite whitePixel ∧
      findVerticalWhileLines whitePixel = [0] ∧ findHorizontalWhileLines whitePixel = [0] :=
  ⟨le_refl 1, le_refl 1, fun _ _ _ _ _ _ => rfl,
    (all_white_boundaries whitePixel (le_refl 1) (le_refl 1) (fun _ _ _ _ _ _ => rfl)).1,
    (all_white_boundaries whitePixel (le_refl 1) (le_refl 1) (fun _ _ _ _ _ _ => rfl)).2 rfl⟩

/-- C5, counterexample: on the raster of one white pixel both detectors return `[0]`,
not `[0, 1]`. -/
theorem white_pixel_without_extent :
    AllWhite whitePixel ∧ findHorizontalWhileLines whitePixel = [0] ∧
      findVerticalWhileLines whitePixel = [0] ∧
      findHorizontalWhileLines whitePixel ≠ [0, (whitePixel.height : Int)] ∧
      findVerticalWhileLines whitePixel ≠ [0, (whitePixel.width : Int)] := by
  have h1 : findHorizontalWhileLines whitePixel = [0] := by decide
  have h2 : findVerticalWhileLines whitePixel = [0] := by decide
  refine ⟨fun _ _ _ _ _ _ => rfl, h1, h2, ?_, ?_⟩
  · rw [h1]; simp
  · rw [h2]; simp

/-- C6 (as amended): on an all-white raster of width and height at least 1,
`findMinesInImage` returns the empty list for every `minLevel`, `0` included: the
column boundary list `[0]` bounds no cell. -/
theorem all_white_no_findings (nanLevel : Int) (img : Raster) (minLevel : Int)
    (hw : 1 ≤ img.width) (_hh : 1 ≤ img.height) (hwhite : AllWhite img) :
    findMinesInImage nanLevel img minLevel = [] := by
  apply findMinesInImage_no_column
  rw [vertical_all_white img hw hwhite]
  simp

/-- C6, witness: the raster of one white pixel at `minLevel = 0`. -/
theorem all_white_no_findings_witness :
    1 ≤ whitePixel.width ∧ 1 ≤ whitePixel.height ∧ AllWhite whitePixel ∧
      findMinesInImage 0 whitePixel 0 = [] :=
  ⟨le_refl 1, le_refl 1, fun _ _ _ _ _ _ => rfl,
    all_white_no_findings 0 whitePixel 0 (le_refl 1) (le_refl 1) (fun _ _ _ _ _ _ => rfl)⟩

/-- C6, counterexample: on the raster of one white pixel `findMinesInImage` at
`minLevel = 0` returns the empty list, not the finding `{x: 0, y: 0, level: 0}`. -/
theorem white_pixel_zero_level_empty :
    AllWhite whitePixel ∧ findMinesInImage 0 whitePixel 0 = [] ∧
      findMinesInImage 0 whitePixel 0 ≠ [⟨0, 0, 0⟩] := by
  have h : findMinesInImage 0 whitePixel 0 = [] :=
    findMinesInImage_no_column 0 whitePixel 0 (by decide)
  refine ⟨fun _ _ _ _ _ _ => rfl, h, ?_⟩
  rw [h]
  simp

/-- C7 (as amended): on a square raster that a white row `r` and a white column `c` split
into four quadrants, of which the top-left one `(0, 0)` is black and the others are
white, `findMinesInImage` at `minLevel = 50` returns exactly one finding,
`{x: 0, y: 0, level: 100}`. -/
theorem black_top_left_quadrant_found (nanLevel : Int) (img : Raster) (r c : Int)
    (hsq : img.height = img.width) (hq : QuadrantRaster img r c 0 0) :
    findMinesInImage nanLevel img 50 = [⟨0, 0, 100⟩] := by
  rw [findMinesInImage_single_cell nanLevel img 50 (-1) r (-1) c
    (quadrant_horizontal img r c hq hsq) (quadrant_vertical img r c hq),
    quadrant_cell nanLevel img r c hq 50]
  rfl

/-- C7, witness: the 3x3 raster whose only black pixel is the top-left one. -/
theorem black_top_left_quadrant_found_witness :
    blackOrigin.height = blackOrigin.width ∧ QuadrantRaster blackOrigin 1 1 0 0 ∧
      findMinesInImage 0 blackOrigin 50 = [⟨0, 0, 100⟩] :=
  ⟨rfl, blackOrigin_quadrant,
    black_top_left_quadrant_found 0 blackOrigin 1 1 rfl blackOrigin_quadrant⟩

/-- C7, counterexample: on the 3x3 raster whose bottom-right quadrant `(1, 1)` is black,
the column boundaries are `[0, 3]` and the row boundaries `[0, 3]`, so the result of
`findMinesInImage` at `minLevel = 50` is not the single finding `{x: 1, y: 1, level: 100}`. -/
theorem black_bottom_right_quadrant_missed :
    QuadrantRaster blackCorner 1 1 1 1 ∧
      findHorizontalWhileLines blackCorner = [0, 3] ∧
      findVerticalWhileLines blackCorner = [0, 3] ∧
      findMinesInImage 0 blackCorner 50 ≠ [⟨1, 1, 100⟩] := by
  have h1 : findHorizontalWhileLines blackCorner = [0, 3] := by decide
  have h2 : findVerticalWhileLines blackCorner = [0, 3] := by decide
  refine ⟨blackCorner_quadrant, h1, h2, ?_⟩
  intro h
  have hmem : (⟨1, 1, 100⟩ : CellMineResult) ∈ findMinesInImage 0 blackCorner 50 := by
    rw [h]; exact List.mem_singleton_self _
  rw [mem_findMinesInImage] at hmem
  obtain ⟨iy, ix, -, hix, hx, -⟩ := hmem
  rw [h2] at hix
  simp only [List.length_cons, List.length_nil] at hix
  simp only at hx
  omega

/-- C8 (as amended): on a raster of width at least 1 that is not taller than wide, for
every cell `(i, j)` that `findMinesInImage` scores (`i + 1 < len(rows)`,
`j + 1 < len(cols)`) the pixels visited by the scorer are exactly the `(x, y)` with
`cols[j] < x < cols[j+1]` and `rows[i] < y < rows[i+1]`, and none of them lies on a
boundary row or on a boundary column. -/
theorem scored_pixels_between_boundaries (img : Raster) (hw : 1 ≤ img.width)
    (hhw : img.height ≤ img.width) (i j : Nat)
    (hi : i + 1 < (findHorizontalWhileLines img).length)
    (hj : j + 1 < (findVerticalWhileLines img).length) (x y : Int) :
    ((x, y) ∈ rectPixels (Rect ((findVerticalWhileLines img).getD j 0 + 1)
        ((findHorizontalWhileLines img).getD i 0 + 1)
        ((findVerticalWhileLines img).getD (j + 1) 0)
        ((findHorizontalWhileLines img).getD (i + 1) 0)) ↔
      (findVerticalWhileLines img).getD j 0 < x ∧
        x < (findVerticalWhileLines img).getD (j + 1) 0 ∧
        (findHorizontalWhileLines img).getD i 0 < y ∧
        y < (findHorizontalWhileLines img).getD (i + 1) 0) ∧
    ((x, y) ∈ rectPixels (Rect ((findVerticalWhileLines img).getD j 0 + 1)
        ((findHorizontalWhileLines img).getD i 0 + 1)
        ((findVerticalWhileLines img).getD (j + 1) 0)
        ((findHorizontalWhileLines img).getD (i + 1) 0)) →
      x ∉ findVerticalWhileLines img ∧ y ∉ findHorizontalWhileLines img) := by
  have hv := sorted_of_gaps (vertical_gaps img (fun h => by omega))
  have hh := sorted_of_gaps (horizontal_gaps img hw hhw)
  have hiff := mem_cell_pixels hv hh hi hj x y
  refine ⟨hiff, fun hmem => ?_⟩
  obtain ⟨h1, h2, h3, h4⟩ := hiff.mp hmem
  exact ⟨not_mem_of_between hv hj h1 h2, not_mem_of_between hh hi h3 h4⟩

/-- C8, witness: the cell `(0, 0)` and the pixel `(0, 0)` of the 3x3 raster with a white
middle row and a white middle column. -/
theorem scored_pixels_between_boundaries_witness :
    ((0 : Int), (0 : Int)) ∈ rectPixels (Rect ((findVerticalWhileLines crossRaster).getD 0 0 + 1)
        ((findHorizontalWhileLines crossRaster).getD 0 0 + 1)
        ((findVerticalWhileLines crossRaster).getD (0 + 1) 0)
        ((findHorizontalWhileLines crossRaster).getD (0 + 1) 0)) ∧
      (0 : Int) ∉ findVerticalWhileLines crossRaster ∧
      (0 : Int) ∉ findHorizontalWhileLines crossRaster :=
  ⟨by decide,
    (scored_pixels_between_boundaries crossRaster (by decide) (by decide) 0 0 (by decide)
      (by decide) 0 0).2 (by decide)⟩

/-- C8, counterexample: on the 0x0 raster the cell `(0, 0)` is scored, its rectangle
`image.Rect(1, 1, 0, 0)` is swapped to `(0, 0, 1, 1)` and the scorer visits the pixel
`(0, 0)`, which is not strictly between the boundaries `0` and `0` and lies on the
boundary row `0` and the boundary column `0`. -/
theorem empty_raster_pixel_on_boundary :
    0 + 1 < (findHorizontalWhileLines emptyRaster).length ∧
      0 + 1 < (findVerticalWhileLines emptyRaster).length ∧
      ((0 : Int), (0 : Int)) ∈ rectPixels (Rect ((findVerticalWhileLines emptyRaster).getD 0 0 + 1)
        ((findHorizontalWhileLines emptyRaster).getD 0 0 + 1)
        ((findVerticalWhileLines emptyRaster).getD (0 + 1) 0)
        ((findHorizontalWhileLines emptyRaster).getD (0 + 1) 0)) ∧
      ¬((findVerticalWhileLines emptyRaster).getD 0 0 < 0 ∧
        0 < (findVerticalWhileLines emptyRaster).getD (0 + 1) 0 ∧
        (findHorizontalWhileLines emptyRaster).getD 0 0 < 0 ∧
        0 < (findHorizontalWhileLines emptyRaster).getD (0 + 1) 0) ∧
      (0 : Int) ∈ findVerticalWhileLines emptyRaster ∧
      (0 : Int) ∈ findHorizontalWhileLines emptyRaster := by
  have h1 : findHorizontalWhileLines emptyRaster = [0, 0] := by decide
  have h2 : findVerticalWhileLines emptyRaster = [0, 0] := by decide
  rw [h1, h2]
  decide

/-- C9, the code at the failing input: on the raster of one row of two black pixels the
row boundaries are `[-1, 2]` and the column boundaries `[-1, 2]`, so the only cell has the
rectangle `(0, 0, 2, 2)`; the scorer reads the pixel `(0, 1)`, whose `y` is not below the
height `1`, and the cell is reported with the level `100`. -/
theorem scorer_reads_below_raster :
    1 ≤ blackPair.width ∧ 1 ≤ blackPair.height ∧
      findHorizontalWhileLines blackPair = [-1, 2] ∧
      findVerticalWhileLines blackPair = [-1, 2] ∧
      ((0 : Int), (1 : Int)) ∈ rectPixels (Rect (-1 + 1) (-1 + 1) 2 2) ∧
      ¬((1 : Int) < blackPair.height) ∧
      ∀ nanLevel : Int, findMinesInImage nanLevel blackPair 0 = [⟨0, 0, 100⟩] := by
  have h1 : findHorizontalWhileLines blackPair = [-1, 2] := by decide
  have h2 : findVerticalWhileLines blackPair = [-1, 2] := by decide
  refine ⟨by decide, by decide, h1, h2, by decide, by decide, fun nanLevel => ?_⟩
  rw [findMinesInImage_single_cell nanLevel blackPair 0 (-1) 2 (-1) 2 h1 h2,
    checkCellForMines_black nanLevel blackPair _ 0 (by decide)
      (fun p _ => by rw [blackPair_RGBA]; rfl)]
  rfl

/-- C10, the code at the failing input: the raster of one row of two black pixels has no
white row and no white column, its height is `1`, and the row detector returns `[-1, 2]`
(the width), not `[-1, 1]`; the column detector returns `[-1, 2]`. -/
theorem row_boundaries_end_with_width :
    (∀ y : Int, isHorizontalWhiteLine blackPair y = false) ∧
      (∀ x : Int, isVerticalWhiteLine blackPair x = false) ∧
      findHorizontalWhileLines blackPair = [-1, 2] ∧
      findHorizontalWhileLines blackPair ≠ [-1, (blackPair.height : Int)] ∧
      findVerticalWhileLines blackPair = [-1, (blackPair.width : Int)] := by
  have h1 : findHorizontalWhileLines blackPair = [-1, 2] := by decide
  refine ⟨fun y => ?_, fun x => ?_, h1, ?_, by decide⟩
  · exact isHorizontalWhiteLine_false blackPair y 0 (by decide) (by decide) (by decide)
      (by rw [blackPair_RGBA]; decide)
  · exact isVerticalWhiteLine_false blackPair x 0 (by decide) (by decide) (by decide)
      (by rw [blackPair_RGBA]; decide)
  · rw [h1]
    decide

/-- C11: for every raster and every integer `k`, `findMinesInImage` at `k + 1` is the
sublist of `findMinesInImage` at `k` made of the findings with `level ≥ k + 1`, in the
same order; in particular every finding at `k + 1` is a finding at `k`. -/
theorem threshold_monotone (nanLevel : Int) (img : Raster) (k : Int) :
    findMinesInImage nanLevel img (k + 1) =
        (findMinesInImage nanLevel img k).filter (fun f => decide (k + 1 ≤ f.Level)) ∧
      List.Sublist (findMinesInImage nanLevel img (k + 1)) (findMinesInImage nanLevel img k) ∧
      ∀ f ∈ findMinesInImage nanLevel img (k + 1), f ∈ findMinesInImage nanLevel img k := by
  have h := findMinesInImage_succ nanLevel img k
  refine ⟨h, ?_, ?_⟩
  · rw [h]
    exact List.filter_sublist _
  · intro f hf
    rw [h] at hf
    exact List.mem_of_mem_filter hf

/-- C12: the list returned by `findMinesInImage` is in strict row-major order: of two
findings `a` before `b`, either `a.y < b.y`, or `a.y = b.y` and `a.x < b.x`. -/
theorem findings_in_row_major_order (nanLevel : Int) (img : Raster) (minLevel : Int) :
    List.Pairwise (fun a b : CellMineResult => a.Y < b.Y ∨ (a.Y = b.Y ∧ a.X < b.X))
      (findMinesInImage nanLevel img minLevel) :=
  findMinesInImage_rowMajor nanLevel img minLevel

/-- C13: on a well-formed rectangle of positive area in which every pixel has the 8-bit
intensity `v ≤ 255` (channel value `257 * v`), `checkCellForMines` returns
`100 - round (100 * v / 255)` with halves rounded away from zero, which is
`100 - (200 * v + 255) / 510` in integer arithmetic; it returns `0` for `v = 255` and
`100` for `v = 0`. -/
theorem uniform_cell_level (nanLevel : Int) (img : Raster) (rect : Rectangle) (minLevel : Int)
    (v : Nat) (hv : v ≤ 255) (hx : rect.MinX < rect.MaxX) (hy : rect.MinY < rect.MaxY)
    (h : ∀ p ∈ rectPixels rect, RGBA img p.1 p.2 = grayChannel v) :
    checkCellForMines nanLevel img rect minLevel = 100 - goRound (100 * (v : ℚ) / 255) ∧
      goRound (100 * (v : ℚ) / 255) = ((200 * v + 255) / 510 : Nat) ∧
      (v = 255 → checkCellForMines nanLevel img rect minLevel = 0) ∧
      (v = 0 → checkCellForMines nanLevel img rect minLevel = 100) := by
  have hc := checkCellForMines_uniform nanLevel img rect minLevel v hv hx hy h
  refine ⟨by rw [hc, goRound_exact], goRound_exact v, fun h255 => ?_, fun h0 => ?_⟩
  · rw [hc, h255]
    rfl
  · rw [hc, h0]
    rfl

/-- C13, witness: the rectangle `(0, 0, 1, 1)` of the raster of one white pixel has
level `0`. -/
theorem uniform_cell_level_witness :
    checkCellForMines 0 whitePixel ⟨0, 0, 1, 1⟩ 0 = 0 :=
  (uniform_cell_level 0 whitePixel ⟨0, 0, 1, 1⟩ 0 255 (le_refl 255) (by decide) (by decide)
    (by decide)).2.2.1 rfl

/-- C14: on a raster whose pixel intensities are at most `65535`, the score that
`checkCellForMines` gives to a well-formed rectangle of positive area is between `0` and
`100`; hence, when every scored cell has non-zero area, `findMinesInImage` at
`minLevel = 101` returns no finding. -/
theorem score_between_zero_and_hundred (nanLevel : Int) (img : Raster)
    (hpix : ∀ x y : Int, img.pix x y ≤ 65535) :
    (∀ (rect : Rectangle) (minLevel : Int), rect.MinX < rect.MaxX → rect.MinY < rect.MaxY →
      0 ≤ checkCellForMines nanLevel img rect minLevel ∧
        checkCellForMines nanLevel img rect minLevel ≤ 100) ∧
    ((∀ i j : Nat, i + 1 < (findHorizontalWhileLines img).length →
      j + 1 < (findVerticalWhileLines img).length →
      (Rect ((findVerticalWhileLines img).getD j 0 + 1)
        ((findHorizontalWhileLines img).getD i 0 + 1)
        ((findVerticalWhileLines img).getD (j + 1) 0)
        ((findHorizontalWhileLines img).getD (i + 1) 0)).Dx *
      (Rect ((findVerticalWhileLines img).getD j 0 + 1)
        ((findHorizontalWhileLines img).getD i 0 + 1)
        ((findVerticalWhileLines img).getD (j + 1) 0)
        ((findHorizontalWhileLines img).getD (i + 1) 0)).Dy ≠ 0) →
      findMinesInImage nanLevel img 101 = []) :=
  ⟨fun rect minLevel hx hy => checkCellForMines_range nanLevel img hpix rect minLevel hx hy,
    fun harea => findMinesInImage_above_hundred nanLevel img hpix harea⟩

/-- C14, witness: the raster of one row of two black pixels. -/
theorem score_between_zero_and_hundred_witness :
    (0 ≤ checkCellForMines 0 blackPair ⟨0, 0, 2, 1⟩ 0 ∧
        checkCellForMines 0 blackPair ⟨0, 0, 2, 1⟩ 0 ≤ 100) ∧
      findMinesInImage 0 blackPair 101 = [] :=
  ⟨(score_between_zero_and_hundred 0 blackPair (fun _ _ => Nat.zero_le 65535)).1 ⟨0, 0, 2, 1⟩ 0
      (by decide) (by decide),
    (score_between_zero_and_hundred 0 blackPair (fun _ _ => Nat.zero_le 65535)).2 blackPair_area⟩

/-- C15: on a raster wider than 1000 pixels a row whose first 1000 pixels have intensity at
least `65280` passes `isHorizontalWhiteLine` whatever the pixels from `x = 1000` on are;
on a raster taller than 1000 pixels a column whose first 1000 pixels have intensity
`65535` passes `isVerticalWhiteLine`; and each check gives the same answer on two
rasters that agree on the first `min 1000 extent` samples of the line. -/
theorem white_line_checks_stop_at_cap :
    (∀ (img : Raster) (y : Int), 1000 < img.width →
      (∀ x : Int, 0 ≤ x → x < 1000 → 65280 ≤ RGBA img x y) →
      isHorizontalWhiteLine img y = true) ∧
    (∀ (img : Raster) (x : Int), 1000 < img.height →
      (∀ y : Int, 0 ≤ y → y < 1000 → RGBA img x y = 65535) →
      isVerticalWhiteLine img x = true) ∧
    (∀ (img1 img2 : Raster) (y : Int), img1.width = img2.width →
      (∀ x : Int, 0 ≤ x → x < img1.width → x < 1000 → RGBA img1 x y = RGBA img2 x y) →
      isHorizontalWhiteLine img1 y = isHorizontalWhiteLine img2 y) ∧
    (∀ (img1 img2 : Raster) (x : Int), img1.height = img2.height →
      (∀ y : Int, 0 ≤ y → y < img1.height → y < 1000 → RGBA img1 x y = RGBA img2 x y) →
      isVerticalWhiteLine img1 x = isVerticalWhiteLine img2 x) := by
  refine ⟨?_, ?_, isHorizontalWhiteLine_congr, isVerticalWhiteLine_congr⟩
  · intro img y _ h
    exact isHorizontalWhiteLine_true img y (fun x h0 _ h1 => h x h0 h1)
  · intro img x _ h
    exact isVerticalWhiteLine_true img x (fun y h0 _ h1 => h y h0 h1)

/-- C15, witness: the row of 1001 pixels and the column of 1001 pixels whose last pixel is
black pass the checks. -/
theorem white_line_checks_stop_at_cap_witness :
    RGBA wideRow 1000 0 = 0 ∧ isHorizontalWhiteLine wideRow 0 = true ∧
      RGBA tallColumn 0 1000 = 0 ∧ isVerticalWhiteLine tallColumn 0 = true :=
  ⟨by decide,
    white_line_checks_stop_at_cap.1 wideRow 0 (by decide)
      (fun x h0 h1 => by rw [wideRow_RGBA x h0 h1]; decide),
    by decide,
    white_line_checks_stop_at_cap.2.1 tallColumn 0 (by decide)
      (fun y h0 h1 => by rw [tallColumn_RGBA y h0 h1])⟩

/-- C16: on a raster of width at least 1, with `white x` for `isVerticalWhiteLine img x`,
the list returned by `findVerticalWhileLines` is the seed (`0` if `white 0`, else `-1`),
then in increasing order the indices `x` with `1 ≤ x ≤ W - 1`, `white x` and not
`white (x - 1)`, then `W` exactly when `W - 1` is not white. -/
theorem column_boundaries_from_white_columns (img : Raster) (hw : 1 ≤ img.width) :
    findVerticalWhileLines img =
      [if isVerticalWhiteLine img 0 then (0 : Int) else -1] ++
        (intRange 1 img.width).filter
          (fun x => isVerticalWhiteLine img x && !isVerticalWhiteLine img (x - 1)) ++
        (if isVerticalWhiteLine img ((img.width : Int) - 1) then [] else [(img.width : Int)]) :=
  vertical_from_white img hw

/-- C16, witness: the 3x3 raster with a white middle row and a white middle column has the
column boundaries `[-1, 1, 3]`. -/
theorem column_boundaries_from_white_columns_witness :
    1 ≤ crossRaster.width ∧ findVerticalWhileLines crossRaster = [-1, 1, 3] ∧
      findVerticalWhileLines crossRaster =
        [if isVerticalWhiteLine crossRaster 0 then (0 : Int) else -1] ++
          (intRange 1 crossRaster.width).filter
            (fun x => isVerticalWhiteLine crossRaster x &&
              !isVerticalWhiteLine crossRaster (x - 1)) ++
          (if isVerticalWhiteLine crossRaster ((crossRaster.width : Int) - 1) then []
            else [(crossRaster.width : Int)]) :=
  ⟨by decide, by decide, column_boundaries_from_white_columns crossRaster (by decide)⟩

/-- C17 (as amended): on every raster other than the 0x0 one, with `p` the index of the
last white row (`-1` when no row is white), `findHorizontalWhileLines` returns the scanned
boundaries (the seed and the first rows of the later white runs) followed by the width
`W` exactly when `p + 1 ≠ W`, whatever the height is; when `p + 1 = W` nothing follows
the scanned boundaries. -/
theorem row_trailing_test_uses_width (img : Raster) (hne : ¬(img.width = 0 ∧ img.height = 0))
    (p : Int) (hp : IsLastWhite (isHorizontalWhiteLine img) img.height p) :
    findHorizontalWhileLines img =
      [if isHorizontalWhiteLine img 0 then (0 : Int) else -1] ++
        risingEdges (isHorizontalWhiteLine img) img.height ++
        (if p + 1 ≠ (img.width : Int) then [(img.width : Int)] else []) :=
  horizontal_from_white img hne p hp

/-- C17, witness: on the column white, white, black (width 1, height 3) the last white
row is `1`, `1 + 1 ≠ 1`, and the width `1` follows the scanned boundary `0`. -/
theorem row_trailing_test_uses_width_witness :
    ¬(whiteWhiteBlack.width = 0 ∧ whiteWhiteBlack.height = 0) ∧
      IsLastWhite (isHorizontalWhiteLine whiteWhiteBlack) whiteWhiteBlack.height 1 ∧
      findHorizontalWhileLines whiteWhiteBlack = [0, 1] ∧
      findHorizontalWhileLines whiteWhiteBlack =
        [if isHorizontalWhiteLine whiteWhiteBlack 0 then (0 : Int) else -1] ++
          risingEdges (isHorizontalWhiteLine whiteWhiteBlack) whiteWhiteBlack.height ++
          (if (1 : Int) + 1 ≠ (whiteWhiteBlack.width : Int) then [(whiteWhiteBlack.width : Int)]
            else []) :=
  ⟨by decide, whiteWhiteBlack_lastWhite, by decide,
    row_trailing_test_uses_width whiteWhiteBlack (by decide) 1 whiteWhiteBlack_lastWhite⟩

/-- C17, counterexample: on the 0x0 raster no row is white, so `p = -1` and `p + 1` is the
width `0`; the scanned boundaries are `[0]`, and yet the width `0` is appended: the
result is `[0, 0]`. -/
theorem empty_raster_width_appended :
    IsLastWhite (isHorizontalWhiteLine emptyRaster) emptyRaster.height (-1) ∧
      (-1 : Int) + 1 = (emptyRaster.width : Int) ∧
      [if isHorizontalWhiteLine emptyRaster 0 then (0 : Int) else -1] ++
        risingEdges (isHorizontalWhiteLine emptyRaster) emptyRaster.height = [0] ∧
      findHorizontalWhileLines emptyRaster = [0] ++ [(emptyRaster.width : Int)] ∧
      findHorizontalWhileLines emptyRaster ≠
        [if isHorizontalWhiteLine emptyRaster 0 then (0 : Int) else -1] ++
          risingEdges (isHorizontalWhiteLine emptyRaster) emptyRaster.height ++
          (if (-1 : Int) + 1 ≠ (emptyRaster.width : Int) then [(emptyRaster.width : Int)]
            else []) := by
  refine ⟨Or.inl ⟨rfl, fun y h0 h1 => ?_⟩, by decide, by decide, by decide, by decide⟩
  have : ((emptyRaster.height : Nat) : Int) = 0 := rfl
  omega

/-- C18: for an 8-bit gray value `v ≤ 255` with channel value `257 * v`, the tolerant row
test (`≥ 65280`) and the strict column test (`= 65535`) both hold exactly when `v = 255`,
and the high byte `c >> 8` is `v`. Hence on every raster of 8-bit gray pixels
`isHorizontalWhiteLine` and `isVerticalWhiteLine` use the same notion of a white pixel:
each holds exactly when every sampled pixel of the line is inside the raster and has the
byte `255`, the row check is the column check of the transposed raster and conversely;
and `colorSum`, hence `checkCellForMines`, adds the gray bytes themselves. -/
theorem gray_tests_agree (v : Nat) (hv : v ≤ 255) :
    (¬ grayChannel v < 65280 ↔ v = 255) ∧ (¬ grayChannel v ≠ 65535 ↔ v = 255) ∧
      grayChannel v >>> 8 = v ∧
      (∀ (w h : Nat) (Y : Int → Int → Nat) (x y : Int),
        RGBA (grayRaster w h Y) x y < 65280 ↔ RGBA (grayRaster w h Y) x y ≠ 65535) ∧
      (∀ (w h : Nat) (Y : Int → Int → Nat) (x y : Int), 0 ≤ x → x < (w : Int) → 0 ≤ y →
        y < (h : Int) → RGBA (grayRaster w h Y) x y >>> 8 = Y x y % 256) ∧
      (∀ (w h : Nat) (Y : Int → Int → Nat) (y : Int),
        isHorizontalWhiteLine (grayRaster w h Y) y = true ↔
          ∀ x : Int, 0 ≤ x → x < (w : Int) → x < 1000 →
            (0 ≤ y ∧ y < (h : Int) ∧ Y x y % 256 = 255)) ∧
      (∀ (w h : Nat) (Y : Int → Int → Nat) (x : Int),
        isVerticalWhiteLine (grayRaster w h Y) x = true ↔
          ∀ y : Int, 0 ≤ y → y < (h : Int) → y < 1000 →
            (0 ≤ x ∧ x < (w : Int) ∧ Y x y % 256 = 255)) ∧
      (∀ (w h : Nat) (Y : Int → Int → Nat) (k : Int),
        isHorizontalWhiteLine (grayRaster w h Y) k =
            isVerticalWhiteLine (transpose (grayRaster w h Y)) k ∧
          isVerticalWhiteLine (grayRaster w h Y) k =
            isHorizontalWhiteLine (transpose (grayRaster w h Y)) k) ∧
      (∀ (w h : Nat) (Y : Int → Int → Nat) (rect : Rectangle),
        colorSum (grayRaster w h Y) rect =
          ((rectPixels rect).map (fun p =>
            if 0 ≤ p.1 ∧ p.1 < (w : Int) ∧ 0 ≤ p.2 ∧ p.2 < (h : Int)
            then ((Y p.1 p.2 % 256 : Nat) : Int) else 0)).sum) ∧
      (∀ (nanLevel : Int) (w h : Nat) (Y : Int → Int → Nat) (rect : Rectangle)
          (minLevel : Int),
        checkCellForMines nanLevel (grayRaster w h Y) rect minLevel =
          if rect.Dx * rect.Dy = 0 then nanLevel
          else 100 - goRound (f64 (f64 (100 * f64 (f64
            (((rectPixels rect).map (fun p =>
              if 0 ≤ p.1 ∧ p.1 < (w : Int) ∧ 0 ≤ p.2 ∧ p.2 < (h : Int)
              then ((Y p.1 p.2 % 256 : Nat) : Int) else 0)).sum : Int) /
            f64 ((rect.Dx * rect.Dy : Int)))) / 255))) := by
  refine ⟨?_, ?_, grayChannel_shift v hv, grayRaster_tests_agree, ?_, gray_row_white_iff,
    gray_column_white_iff, gray_checks_agree, gray_colorSum, gray_checkCellForMines⟩
  · rw [not_lt]
    exact grayChannel_tolerant v hv
  · rw [not_not]
    exact grayChannel_strict v hv
  · intro w h Y x y hx0 hx hy0 hy
    rw [grayRaster_RGBA, if_pos ⟨hx0, hx, hy0, hy⟩]
    exact grayChannel_shift _ (by omega)

/-- C18, witness: the gray value `255`, and the raster of one pixel of byte `255`, whose
row `0` and column `0` pass the two checks. -/
theorem gray_tests_agree_witness :
    (255 : Nat) ≤ 255 ∧ ¬ grayChannel 255 < 65280 ∧ ¬ grayChannel 255 ≠ 65535 ∧
      grayChannel 255 >>> 8 = 255 ∧
      isHorizontalWhiteLine (grayRaster 1 1 (fun _ _ => 255)) 0 = true ∧
      isVerticalWhiteLine (grayRaster 1 1 (fun _ _ => 255)) 0 = true ∧
      isHorizontalWhiteLine (grayRaster 1 1 (fun _ _ => 255)) 0 =
        isVerticalWhiteLine (transpose (grayRaster 1 1 (fun _ _ => 255))) 0 :=
  ⟨le_refl 255, (gray_tests_agree 255 (le_refl 255)).1.mpr rfl,
    (gray_tests_agree 255 (le_refl 255)).2.1.mpr rfl, (gray_tests_agree 255 (le_refl 255)).2.2.1,
    ((gray_tests_agree 255 (le_refl 255)).2.2.2.2.2.1 1 1 (fun _ _ => 255) 0).mpr
      (fun _ _ _ _ => ⟨le_refl 0, by decide, rfl⟩),
    ((gray_tests_agree 255 (le_refl 255)).2.2.2.2.2.2.1 1 1 (fun _ _ => 255) 0).mpr
      (fun _ _ _ _ => ⟨le_refl 0, by decide, rfl⟩),
    ((gray_tests_agree 255 (le_refl 255)).2.2.2.2.2.2.2.1 1 1 (fun _ _ => 255) 0).1⟩

/-- C19: for a square raster of 8-bit gray pixels (`n ≥ 0`) the row detector returns the
same list as the column detector applied to the transposed raster; and on every raster the
row loop, which starts at `prevWhiteLineAtY + 1`, ends in the same state as a loop that
starts at index `1`. -/
theorem square_gray_detectors_agree (n : Nat) (Y : Int → Int → Nat) :
    findHorizontalWhileLines (grayRaster n n Y) =
        findVerticalWhileLines (transpose (grayRaster n n Y)) ∧
      ∀ img : Raster,
        (intRange ((if isHorizontalWhiteLine img 0 then (0 : Int) else -1) + 1)
            img.height).foldl (scanStep (isHorizontalWhiteLine img))
            ([if isHorizontalWhiteLine img 0 then 0 else -1],
              if isHorizontalWhiteLine img 0 then 0 else -1) =
          (intRange 1 img.height).foldl (scanStep (isHorizontalWhiteLine img))
            ([if isHorizontalWhiteLine img 0 then 0 else -1],
              if isHorizontalWhiteLine img 0 then 0 else -1) :=
  ⟨gray_square_detectors_agree n Y, fun img => scan_start (isHorizontalWhiteLine img) img.height⟩

end MineFinder
